import Mathlib

set_option linter.unusedSectionVars false

/-!
# lme4 `RSC`: regular sparse column accumulation kernel

A shallow embedding of `src/RSC.cpp` (the constructor `RSC::RSC`, `RSC::apply_lambda`
and `RSC::update_A`) together with theorems about it.

Modelling conventions

* `double` values are elements of a commutative ring `R` with decidable equality
  (exact arithmetic).  The entries of `lower` are `Option R`: `some x` is the finite
  double `x`, `none` is a non-finite double (an infinity or a NaN); the code only
  ever tests such an entry with `== 0.` and with `R_finite`.
* C `int` values are `Int`; loop counters that provably stay non-negative are `Nat`.
* Vectors are lists.  An access outside a vector is undefined behaviour in the
  source; it is the outcome `Res.undefined` here.
* `Rcpp::stop` is the outcome `Res.stop m s`, where `s` is the content of the mutable
  buffers at the moment of the call to `stop`.
* Matrices are stored column-major as in R: `M(i,j)` is `data[i + nrow * j]`.
-/

namespace lme4

/-! ## Outcomes -/

/-- The messages passed to `stop` in `RSC.cpp`. -/
inductive Msg where
  /-- Text "dimension mismatch of rv and xv" (constructor). -/
  | rvXv
  /-- Text "dimension mismatch of rv and lower" (constructor). -/
  | rvLower
  /-- Text "minimum row index must be 0" (constructor). -/
  | minRow
  /-- Text "Dimension mismatch of theta and lower". -/
  | thetaLower
  /-- Text "Dimension of resid should be n". -/
  | residN
  /-- Text "Dimension of ubeta should be q + p". -/
  | ubetaQP
  /-- Text "A must be a dsCMatrix object" (the class name is quoted in the source). -/
  | notDsC
  /-- Text "size of A must be q + p". -/
  | sizeA
  /-- Text "A is not stored as the upper triangle". -/
  | notUpper
  /-- Text "u is not upper triangular". -/
  | uNotUpper
  /-- Text "Pattern mismatch". -/
  | patternMismatch
  deriving DecidableEq, Repr

/-- The string literal of each `stop` call. -/
def Msg.text : Msg → String
  | .rvXv => "dimension mismatch of rv and xv"
  | .rvLower => "dimension mismatch of rv and lower"
  | .minRow => "minimum row index must be 0"
  | .thetaLower => "Dimension mismatch of theta and lower"
  | .residN => "Dimension of resid should be n"
  | .ubetaQP => "Dimension of ubeta should be q + p"
  | .notDsC => "A must be a \"dsCMatrix\" object"
  | .sizeA => "size of A must be q + p"
  | .notUpper => "A is not stored as the upper triangle"
  | .uNotUpper => "u is not upper triangular"
  | .patternMismatch => "Pattern mismatch"

/-- Outcome of a piece of code acting on a mutable state `σ`: normal completion,
a call to `stop` (with the state reached so far), or undefined behaviour. -/
inductive Res (σ : Type) where
  | ok (s : σ)
  | stop (m : Msg) (s : σ)
  | undefined
  deriving DecidableEq, Repr

/-- Sequencing: continue only after normal completion. -/
def Res.bind {σ : Type} (r : Res σ) (f : σ → Res σ) : Res σ :=
  match r with
  | .ok s => f s
  | .stop m s => .stop m s
  | .undefined => .undefined

/-- Transport the state of an outcome (used to run code that touches one buffer
inside a state made of several buffers). -/
def Res.map {σ τ : Type} (f : σ → τ) (r : Res σ) : Res τ :=
  match r with
  | .ok s => .ok (f s)
  | .stop m s => .stop m (f s)
  | .undefined => .undefined

/-- An upward loop `for (int i = 0; i < N; ++i) body(i)`: the first `N` iterations are
the first `N - 1` iterations followed by `body (N - 1)`. -/
def forLoop {σ : Type} (body : Nat → σ → Res σ) : Nat → σ → Res σ
  | 0, s => .ok s
  | N + 1, s => (forLoop body N s).bind (body N)

/-- A downward loop `for (int i = N - 1; i >= 0; --i) body(i)`. -/
def downLoop {σ : Type} (body : Nat → σ → Res σ) : Nat → σ → Res σ
  | 0, s => .ok s
  | N + 1, s => (body N s).bind (downLoop body N)

/-- What a caller observes of a call: the final state of a normal completion, the message
of a `stop`, or undefined behaviour. -/
inductive Outcome (σ : Type) where
  | ok (s : σ)
  | error (m : Msg)
  | undefined
  deriving DecidableEq, Repr

/-- The observable outcome of a result: the state reached at a `stop` is forgotten. -/
def Res.outcome {σ : Type} : Res σ → Outcome σ
  | .ok s => .ok s
  | .stop m _ => .error m
  | .undefined => .undefined

/-- A predicate on outcomes: `P` on the final state of a normal completion, `Q` on the
message and state of a `stop`; nothing is required of undefined behaviour. -/
def Res.Sat {σ : Type} (P : σ → Prop) (Q : Msg → σ → Prop) : Res σ → Prop
  | .ok s => P s
  | .stop m s => Q m s
  | .undefined => True

/-! ## Vectors and matrices -/

/-- Read `xs[i]` for a C `int` index `i`; `none` when the index is out of range. -/
def getI {α : Type} (xs : List α) (i : Int) : Option α :=
  if i < 0 then none else xs[i.toNat]?

/-- Write `xs[i] = v` for a C `int` index `i`; `none` when the index is out of range. -/
def setI {α : Type} (xs : List α) (i : Int) (v : α) : Option (List α) :=
  if i < 0 then none
  else if i.toNat < xs.length then some (xs.set i.toNat v)
  else none

/-- An R matrix (`IntegerMatrix`, `NumericMatrix`): dimensions and column-major data. -/
structure RMatrix (α : Type) where
  nrow : Nat
  ncol : Nat
  data : List α
  deriving DecidableEq, Repr

/-- The unchecked element access `M(i, j)` of Rcpp: offset `i + nrow * j` into the data. -/
def RMatrix.at {α : Type} (M : RMatrix α) (i j : Nat) : Option α :=
  M.data[i + M.nrow * j]?

/-- An R matrix whose data has the length its dimensions announce. -/
def RMatrix.WF {α : Type} (M : RMatrix α) : Prop :=
  M.data.length = M.nrow * M.ncol

/-! ## The class `RSC` -/

/-- The data members of `RSC`, as the initialiser list of the constructor gives them (the
class declaration `RSC.h` is not among the sources at hand): the index matrix `rv`, the
design matrix `xv`, the marker vector `lower` and the five integers derived from them. -/
structure RSC (R : Type) where
  rv : RMatrix Int
  xv : RMatrix R
  lower : List (Option R)
  k : Nat
  kpp : Nat
  n : Nat
  p : Int
  q : Int
  deriving DecidableEq, Repr

/-- The test `R_finite` on an entry of `lower`. -/
def R_finite {R : Type} (x : Option R) : Bool := x.isSome

/-- Greatest element of a non-empty range (`std::max_element`). -/
def maxElement : List Int → Option Int
  | [] => none
  | x :: xs => some (xs.foldl max x)

/-- Least element of a non-empty range (`std::min_element`). -/
def minElement : List Int → Option Int
  | [] => none
  | x :: xs => some (xs.foldl min x)

/-- The constructor `RSC::RSC` (the diagnostic print is left out).  Dereferencing
`max_element` of an empty `rv` is undefined; a `stop` carries the members as initialised. -/
def RSC.new {R : Type} (rv : RMatrix Int) (xv : RMatrix R) (lower : List (Option R)) :
    Res (RSC R) :=
  match maxElement rv.data, minElement rv.data with
  | some mx, some mn =>
    let obj : RSC R :=
      { rv := rv, xv := xv, lower := lower, k := rv.nrow, kpp := xv.nrow, n := xv.ncol,
        p := (xv.nrow : Int) - (rv.nrow : Int), q := mx + 1 }
    if rv.ncol ≠ obj.n ∨ obj.p < 0 then .stop .rvXv obj
    else if obj.k ≠ lower.countP R_finite then .stop .rvLower obj
    else if mn ≠ 0 then .stop .minRow obj
    else .ok obj
  | _, _ => .undefined

section Kernel

variable {R : Type} [CommRing R] [DecidableEq R]

/-! ## `apply_lambda` -/

/-- The local variables of `apply_lambda`: the cursor `dpos`, the pointer `rr`
(`none` is the null pointer, `some r` is `&dest[r]`) and the buffer `dest`. -/
structure LamSt (R : Type) where
  dpos : Int
  rr : Option Nat
  dest : List R
  deriving DecidableEq, Repr

/-- One iteration of the loop of `apply_lambda`, at loop index `k`. -/
def lambdaStep (lower : List (Option R)) (theta : List R) (k : Nat) (s : LamSt R) :
    Res (LamSt R) :=
  match lower[k]? with
  | none => .undefined
  | some lk =>
    if lk = some 0 then
      -- dest[++dpos] *= theta[k]; rr = &dest[k];
      let dpos := s.dpos + 1
      match getI s.dest dpos, theta[k]? with
      | some d, some t =>
        match setI s.dest dpos (d * t) with
        | some dest => .ok { dpos := dpos, rr := some k, dest := dest }
        | none => .undefined
      | _, _ => .undefined
    else
      -- dest[dpos] += theta[k] * *++rr;
      match s.rr with
      | none => .undefined
      | some r =>
        match getI s.dest s.dpos, theta[k]?, s.dest[r + 1]? with
        | some d, some t, some v =>
          match setI s.dest s.dpos (d + t * v) with
          | some dest => .ok { dpos := s.dpos, rr := some (r + 1), dest := dest }
          | none => .undefined
        | _, _, _ => .undefined

/-- The method `RSC::apply_lambda(theta, dest)`; the outcome carries the final `dest`. -/
def apply_lambda (obj : RSC R) (theta : List R) (dest : List R) : Res (List R) :=
  (forLoop (lambdaStep obj.lower theta) obj.kpp { dpos := -1, rr := none, dest := dest }).map
    LamSt.dest

/-! ## `update_A` -/

/-- Modelled from the spec: the class `dsCMatrix` of `CHM.h`, which is not part of the
sources at hand.  `isDsC` is the answer of `AA.is("dsCMatrix")` (a symmetric sparse matrix in
compressed-sparse-column form), `nrow` its order and `colptr`, `rowval`, `nzval` the three
parallel arrays the spec describes. -/
structure dsCMatrix (R : Type) where
  isDsC : Bool
  nrow : Int
  colptr : List Int
  rowval : List Int
  nzval : List R
  deriving DecidableEq, Repr

/-- The two buffers `update_A` writes: the payload of `A` and `ubeta`. -/
structure St (R : Type) where
  nzval : List R
  ubeta : List R
  deriving DecidableEq, Repr

/-- One iteration of the identity seed loop, column `i`. -/
def seedStep (colptr rowval : List Int) (i : Nat) (nzval : List R) : Res (List R) :=
  match colptr[i + 1]? with
  | none => .undefined
  | some cp =>
    let ll : Int := cp - 1
    match getI rowval ll with
    | none => .undefined
    | some ii =>
      if ii ≠ (i : Int) then .stop .notUpper nzval
      else
        -- nzval[ii] = 1.;
        match setI nzval ii 1 with
        | some nz => .ok nz
        | none => .undefined

/-- The copy of column `j` of `xv` into `w`: `kpp` values starting at `&xv(0,j)`. -/
def xvCol (obj : RSC R) (j : Nat) : Option (List R) :=
  if obj.xv.nrow * j + obj.kpp ≤ obj.xv.data.length then
    some ((obj.xv.data.drop (obj.xv.nrow * j)).take obj.kpp)
  else none

/-- One iteration of `ubeta[rv(i,j)] += rj * w[i]`. -/
def ubetaStep (obj : RSC R) (j : Nat) (rj : R) (w : List R) (i : Nat) (ubeta : List R) :
    Res (List R) :=
  match obj.rv.at i j, w[i]? with
  | some c, some wi =>
    match getI ubeta c with
    | some u =>
      match setI ubeta c (u + rj * wi) with
      | some ub => .ok ub
      | none => .undefined
    | none => .undefined
  | _, _ => .undefined

/-- The loop `while (rowval[ll] > ii1) --ll;` started at a non-negative `ll`: the position
where it halts, or `none` when it runs off the front of `rowval` (or starts past its end). -/
def walkUp (rowval : List Int) (ii1 : Int) : Nat → Option Nat
  | 0 =>
    match rowval[0]? with
    | none => none
    | some r => if r > ii1 then none else some 0
  | ll + 1 =>
    match rowval[ll + 1]? with
    | none => none
    | some r => if r > ii1 then walkUp rowval ii1 ll else some (ll + 1)

/-- The loop `while (rowval[ll] > ii1) --ll;` for a C `int` cursor `ll`. -/
def walk (rowval : List Int) (ii1 : Int) (ll : Int) : Option Int :=
  if ll < 0 then none else (walkUp rowval ii1 ll.toNat).map Int.ofNat

/-- The off-diagonal loop `for (int l = i - 1; l >= 0 && ll >= cpi; --l)` of column scan `i`:
`offLoop … i ll nzval` runs it from `l = i - 1` with cursor `ll`; `wi` is `w[i]`. -/
def offLoop (obj : RSC R) (rowval : List Int) (j : Nat) (w : List R) (cpi : Int) (wi : R) :
    Nat → Int → List R → Res (List R)
  | 0, _, nzval => .ok nzval
  | l + 1, ll, nzval =>
    if ll < cpi then .ok nzval
    else
      match obj.rv.at l j with
      | none => .undefined
      | some ii1 =>
        match walk rowval ii1 ll with
        | none => .undefined
        | some ll1 =>
          match getI rowval ll1, getI nzval ll1, w[l]? with
          | some r, some a, some wl =>
            if r ≠ ii1 then .stop .patternMismatch nzval
            else
              match setI nzval ll1 (a + wi * wl) with
              | some nz => offLoop obj rowval j w cpi wi l ll1 nz
              | none => .undefined
          | some r, _, _ => if r ≠ ii1 then .stop .patternMismatch nzval else .undefined
          | none, _, _ => .undefined

/-- One iteration of the scan `for (int i = kpp - 1; i >= 0; --i)` of observation `j`. -/
def scanStep (obj : RSC R) (colptr rowval : List Int) (j : Nat) (w : List R) (i : Nat)
    (nzval : List R) : Res (List R) :=
  match obj.rv.at i j with
  | none => .undefined
  | some ii =>
    match getI colptr ii, getI colptr (ii + 1) with
    | some cpi, some cp1 =>
      let ll : Int := cp1 - 1
      match getI rowval ll with
      | none => .undefined
      | some r =>
        if r ≠ ii then .stop .uNotUpper nzval
        else
          match getI nzval ll, w[i]? with
          | some a, some wi =>
            match setI nzval ll (a + wi * wi) with
            | some nz => offLoop obj rowval j w cpi wi i ll nz
            | none => .undefined
          | _, _ => .undefined
    | _, _ => .undefined

/-- The body of the loop over observations, observation `j`. -/
def obsStep (obj : RSC R) (theta resid : List R) (colptr rowval : List Int) (j : Nat)
    (s : St R) :
    Res (St R) :=
  match resid[j]?, xvCol obj j with
  | some rj, some w0 =>
    match apply_lambda obj theta w0 with
    | .ok w =>
      ((forLoop (ubetaStep obj j rj w) obj.kpp s.ubeta).map
          (fun ub => ({ nzval := s.nzval, ubeta := ub } : St R))).bind
        (fun s1 => (downLoop (scanStep obj colptr rowval j w) obj.kpp s1.nzval).map
          (fun nz => ({ nzval := nz, ubeta := s1.ubeta } : St R)))
    | _ => .undefined
  | _, _ => .undefined

/-- The state after the two `std::fill` calls. -/
def zeroed (s : St R) : St R :=
  { nzval := List.replicate s.nzval.length 0, ubeta := List.replicate s.ubeta.length 0 }

/-- The method `RSC::update_A(theta, resid, AA, ubeta)`.  The outcome carries the final
contents of `A.nzval` and of `ubeta`. -/
def update_A (obj : RSC R) (theta resid : List R) (A : dsCMatrix R) (ubeta : List R) :
    Res (St R) :=
  let s0 : St R := { nzval := A.nzval, ubeta := ubeta }
  if theta.length ≠ obj.lower.length then .stop .thetaLower s0
  else if (resid.length : Int) ≠ (obj.n : Int) then .stop .residN s0
  else if (ubeta.length : Int) ≠ obj.q + obj.p then .stop .ubetaQP s0
  else if A.isDsC = false then .stop .notDsC s0
  else if A.nrow ≠ obj.q + obj.p then .stop .sizeA s0
  else
    ((forLoop (seedStep A.colptr A.rowval) obj.q.toNat (zeroed s0).nzval).map
        (fun nz => ({ nzval := nz, ubeta := (zeroed s0).ubeta } : St R))).bind
      (forLoop (obsStep obj theta resid A.colptr A.rowval) obj.n)

end Kernel

/-! ## Predicates used in the statements -/

/-- The buffers of `t` have the lengths of the buffers of `s`. -/
def St.SameLen {R : Type} (s t : St R) : Prop :=
  t.nzval.length = s.nzval.length ∧ t.ubeta.length = s.ubeta.length

/-- The transformed column of observation `j`: the vector `w` after
`apply_lambda(theta, w)` on the copy of column `j` of `xv` (empty when that step does not
complete). -/
def lambdaCol {R : Type} [CommRing R] [DecidableEq R] (obj : RSC R) (theta : List R)
    (j : Nat) : List R :=
  match xvCol obj j with
  | some w0 =>
    match apply_lambda obj theta w0 with
    | .ok w => w
    | _ => []
  | none => []

/-- Column `i` of the pattern has a last stored row, and that row is not `i`. -/
def seedBad (colptr rowval : List Int) (i : Nat) : Prop :=
  ∃ cp r, colptr[i + 1]? = some cp ∧ getI rowval (cp - 1) = some r ∧ r ≠ (i : Int)

/-- The reads of the seed loop at column `i` are in range: `colptr[i + 1]` exists and
`colptr[i + 1] - 1` is a position of `rowval`. -/
def seedInRange (colptr rowval : List Int) (i : Nat) : Prop :=
  ∃ cp r, colptr[i + 1]? = some cp ∧ getI rowval (cp - 1) = some r

/-! ## Reference values taken from the specification -/

/-- The value the specification gives the diagonal slot of column `c` of `A`: one plus the
sum, over the observations `j` and the rows `r` with `rv(r,j) = c`, of `w_j[r]^2`. -/
def diagExpected {R : Type} [CommRing R] [DecidableEq R] (obj : RSC R) (theta : List R)
    (c : Nat) : R :=
  1 + ∑ j in Finset.range obj.n, ∑ r in Finset.range obj.kpp,
    (if obj.rv.at r j = some (c : Int) then (lambdaCol obj theta j).getD r 0 ^ 2 else 0)

/-- The value the specification gives the stored entry of `A` at row `r`, column `c` with
`r < c`: the sum, over the observations `j` and the row pairs `l < i` with `rv(l,j) = r` and
`rv(i,j) = c`, of `w_j[i] * w_j[l]`. -/
def offDiagExpected {R : Type} [CommRing R] [DecidableEq R] (obj : RSC R) (theta : List R)
    (r c : Nat) : R :=
  ∑ j in Finset.range obj.n, ∑ i in Finset.range obj.kpp, ∑ l in Finset.range i,
    (if obj.rv.at l j = some (r : Int) ∧ obj.rv.at i j = some (c : Int)
      then (lambdaCol obj theta j).getD i 0 * (lambdaCol obj theta j).getD l 0 else 0)

/-- The positions of the zero markers of `lower`, in increasing order: position `d` of
this list is where column `d` of the factor starts in `theta`. -/
def zeroPositions {R : Type} [CommRing R] [DecidableEq R] (lower : List (Option R)) :
    List Nat :=
  (List.range lower.length).filter (fun t => decide (lower[t]? = some (some 0)))

/-- The entry `L[r][d]` of the relative covariance factor the specification describes:
column `d` of `L` holds, from the diagonal downwards, the values of `theta` from the `d`-th
zero marker of `lower` up to the next one; every other entry is zero. -/
def factorEntry {R : Type} [CommRing R] [DecidableEq R] (lower : List (Option R))
    (theta : List R) (r d : Nat) : R :=
  match (zeroPositions lower)[d]? with
  | none => 0
  | some z =>
    if d ≤ r ∧ z + (r - d) < (zeroPositions lower).getD (d + 1) lower.length then
      theta.getD (z + (r - d)) 0
    else 0

/-- The product of the transpose of the factor with a block: entry `d` of the
first `k` entries of the result. -/
def factorTransposeApply {R : Type} [CommRing R] [DecidableEq R] (lower : List (Option R))
    (theta block : List R) (k d : Nat) : R :=
  ∑ r in Finset.range k, factorEntry lower theta r d * block.getD r 0

/-! ## Concrete inputs -/

/-- One observation touching the two random-effect coefficients `0` and `1`, no fixed
effect: `k = kpp = 2`, `n = 1`, `p = 0`, `q = 2`. -/
def exPair : RSC Int :=
  { rv := { nrow := 2, ncol := 1, data := [0, 1] },
    xv := { nrow := 2, ncol := 1, data := [2, 3] },
    lower := [some 0, some 0],
    k := 2, kpp := 2, n := 1, p := 0, q := 2 }

/-- The full upper triangle of a 2 x 2 symmetric matrix: column 0 stores row 0, column 1
stores rows 0 and 1. -/
def exUpper : dsCMatrix Int :=
  { isDsC := true, nrow := 2, colptr := [0, 1, 3], rowval := [0, 0, 1], nzval := [7, 7, 7] }

/-- The diagonal pattern of a 2 x 2 symmetric matrix: each column stores its diagonal only. -/
def exDiag : dsCMatrix Int :=
  { isDsC := true, nrow := 2, colptr := [0, 1, 2], rowval := [0, 1], nzval := [7, 7] }

/-- One 2 x 2 triangular block and one fixed effect, a single observation: `k = 2`,
`kpp = 3`, `n = 1`, `p = 1`, `q = 2`. -/
def exBlock : RSC Int :=
  { rv := { nrow := 2, ncol := 1, data := [0, 1] },
    xv := { nrow := 3, ncol := 1, data := [2, 3, 5] },
    lower := [some 0, none, some 0],
    k := 2, kpp := 3, n := 1, p := 1, q := 2 }

/-- Two 2 x 2 triangular blocks and two fixed effects, one observation: `k = 4`, `kpp = 6`,
`n = 1`, `p = 2`, `q = 4`. -/
def exTwoBlocks : RSC Int :=
  { rv := { nrow := 4, ncol := 1, data := [0, 1, 2, 3] },
    xv := { nrow := 6, ncol := 1, data := [1, 10, 100, 1000, 10000, 100000] },
    lower := [some 0, none, some 0, some 0, none, some 0],
    k := 4, kpp := 6, n := 1, p := 2, q := 4 }

/-- One observation on a single random-effect coefficient: `k = kpp = 1`, `n = 1`, `p = 0`,
`q = 1`. -/
def exSingle : RSC Int :=
  { rv := { nrow := 1, ncol := 1, data := [0] },
    xv := { nrow := 1, ncol := 1, data := [2] },
    lower := [some 0],
    k := 1, kpp := 1, n := 1, p := 0, q := 1 }

/-- A 1 x 1 symmetric sparse matrix without any stored entry. -/
def exEmpty : dsCMatrix Int :=
  { isDsC := true, nrow := 1, colptr := [0, 0], rowval := [], nzval := [] }

/-- The value stored for row `r` of column `c` in a compressed-sparse-column matrix: the
sum of the payload at the positions of column `c` (from `colptr[c]` up to, not including,
`colptr[c + 1]`) whose row index is `r`; zero when the entry is not stored. -/
def storedEntry {R : Type} [CommRing R] (colptr rowval : List Int) (nzval : List R)
    (r c : Nat) : R :=
  match colptr[c]?, colptr[c + 1]? with
  | some a, some b =>
    ∑ idx in Finset.range nzval.length,
      (if a ≤ (idx : Int) ∧ (idx : Int) < b ∧ rowval[idx]? = some (r : Int)
        then nzval.getD idx 0 else 0)
  | _, _ => 0

/-- The full symmetric matrix obtained by mirroring the stored upper triangle. -/
def mirrored {R : Type} [CommRing R] (colptr rowval : List Int) (nzval : List R)
    (r c : Nat) : R :=
  if r ≤ c then storedEntry colptr rowval nzval r c else storedEntry colptr rowval nzval c r

/-- The quadratic form `v^T M v` of the mirrored matrix of order `N`. -/
def quadForm {R : Type} [CommRing R] (colptr rowval : List Int) (nzval : List R) (N : Nat)
    (v : List R) : R :=
  ∑ r in Finset.range N, ∑ c in Finset.range N,
    v.getD r 0 * mirrored colptr rowval nzval r c * v.getD c 0

/-- Two observations on one random-effect coefficient and one fixed effect: `k = 1`,
`kpp = 2`, `n = 2`, `p = 1`, `q = 1`. -/
def exFixed : RSC Int :=
  { rv := { nrow := 1, ncol := 2, data := [0, 0] },
    xv := { nrow := 2, ncol := 2, data := [2, 3, 5, 7] },
    lower := [some 0, none],
    k := 1, kpp := 2, n := 2, p := 1, q := 1 }

/-- An index matrix with two rows and a marker vector whose second entry is finite but not
zero. -/
def exFiniteMarker : RSC Int :=
  { rv := { nrow := 2, ncol := 1, data := [0, 1] },
    xv := { nrow := 2, ncol := 1, data := [2, 3] },
    lower := [some 0, some 1],
    k := 2, kpp := 2, n := 1, p := 0, q := 2 }

/-- Two outcomes are related by `r`: both complete with related states, both stop with
the same message and related states, or both are undefined. -/
def Res.Rel {σ τ : Type} (r : σ → τ → Prop) : Res σ → Res τ → Prop
  | .ok s, .ok t => r s t
  | .stop m s, .stop m' t => m = m' ∧ r s t
  | .undefined, .undefined => True
  | _, _ => False

/-- Column `i` of the pattern ends in row `i`: its last stored row, at position
`colptr[i + 1] - 1`, is `i`. -/
def seedGood (colptr rowval : List Int) (i : Nat) : Prop :=
  ∃ cp, colptr[i + 1]? = some cp ∧ getI rowval (cp - 1) = some (i : Int)

/-- Two observations on three random-effect coefficients, touching `(0, 1)` and `(1, 2)`:
`k = kpp = 2`, `n = 2`, `p = 0`, `q = 3`. -/
def exShift : RSC Int :=
  { rv := { nrow := 2, ncol := 2, data := [0, 1, 1, 2] },
    xv := { nrow := 2, ncol := 2, data := [2, 3, 5, 7] },
    lower := [some 0, some 0],
    k := 2, kpp := 2, n := 2, p := 0, q := 3 }

/-- A 3 x 3 upper-triangle pattern whose column 2 stores rows 0 and 2 but not row 1. -/
def exGap : dsCMatrix Int :=
  { isDsC := true, nrow := 3, colptr := [0, 1, 3, 5], rowval := [0, 0, 1, 0, 2],
    nzval := [0, 0, 0, 0, 0] }

/-- A well-formed upper-triangle pattern for an object with `q` random-effect columns:
`colptr[0] = 0`, `colptr` is non-decreasing, the row indices of each column are not negative
and strictly ascending, and every column `i < q` ends in row `i`. -/
structure UpperPattern (colptr rowval : List Int) (q : Int) : Prop where
  colptr_zero : colptr[0]? = some 0
  colptr_mono : ∀ (c : Nat) (a b : Int), colptr[c]? = some a → colptr[c + 1]? = some b → a ≤ b
  rows_nonneg : ∀ (c : Nat) (a b : Int), colptr[c]? = some a → colptr[c + 1]? = some b →
    ∀ idx : Int, a ≤ idx → idx < b → ∃ r, getI rowval idx = some r ∧ 0 ≤ r
  rows_ascending : ∀ (c : Nat) (a b : Int), colptr[c]? = some a → colptr[c + 1]? = some b →
    ∀ idx idx' : Int, a ≤ idx → idx < idx' → idx' < b →
      ∀ r r', getI rowval idx = some r → getI rowval idx' = some r' → r < r'
  column_ends : ∀ i : Nat, (i : Int) < q → seedGood colptr rowval i

/-- An outcome free of undefined behaviour, whose final state satisfies `P` when the code
completes. -/
def Res.Safe {σ : Type} (P : σ → Prop) : Res σ → Prop
  | .ok s => P s
  | .stop _ _ => True
  | .undefined => False

/-- Position `t` of `lower` is a block start: it holds the value zero. -/
def blockStart {R : Type} [CommRing R] (lower : List (Option R)) (t : Nat) : Prop :=
  lower[t]? = some (some 0)

instance {R : Type} [CommRing R] [DecidableEq R] (lower : List (Option R)) :
    DecidablePred (blockStart lower) :=
  fun t => inferInstanceAs (Decidable (lower[t]? = some (some 0)))

/-- The number of block starts among the positions below `K`. -/
def startCount {R : Type} [CommRing R] [DecidableEq R] (lower : List (Option R)) (K : Nat) :
    Nat :=
  Nat.count (blockStart lower) K

/-- The scale factor that the first `K` iterations of `apply_lambda` have applied to output
slot `d`: the value of `theta` at the block start number `d`, when it lies below `K`. -/
def diagCoef {R : Type} [CommRing R] [DecidableEq R] (lower : List (Option R))
    (theta : List R) (K d : Nat) : R :=
  ∑ t in Finset.range K,
    (if blockStart lower t ∧ startCount lower t = d then theta.getD t 0 else 0)

/-- The off-diagonal terms that the first `K` iterations of `apply_lambda` have added to
output slot `d`: `theta[t] * x[t]` for the positions `t < K` that are not block starts and
follow the block start number `d`. -/
def offSum {R : Type} [CommRing R] [DecidableEq R] (lower : List (Option R))
    (theta x : List R) (K d : Nat) : R :=
  ∑ t in Finset.range K,
    (if ¬ blockStart lower t ∧ startCount lower t = d + 1
      then theta.getD t 0 * x.getD t 0 else 0)

/-- The invariant of the loop of `apply_lambda` after `K` iterations on the input `x`. -/
def LambdaInv {R : Type} [CommRing R] [DecidableEq R] (lower : List (Option R))
    (theta x : List R) (K : Nat) (s : LamSt R) : Prop :=
  s.dest.length = x.length ∧ s.dpos = (startCount lower K : Int) - 1 ∧
    (0 < K → s.rr = some (K - 1)) ∧
    ∀ d, d < x.length → s.dest.getD d 0 =
      (if d < startCount lower K then diagCoef lower theta K d * x.getD d 0 else x.getD d 0) +
        offSum lower theta x K d

/-! # Theorems -/

/-! ## Loops and vectors -/

section Loops

variable {σ τ : Type}

theorem Res.bind_eq_ok {r : Res σ} {f : σ → Res σ} {s' : σ} :
    r.bind f = .ok s' ↔ ∃ s1, r = .ok s1 ∧ f s1 = .ok s' := by
  cases r <;> simp [Res.bind]

theorem Res.map_eq_ok {r : Res σ} {f : σ → τ} {t : τ} :
    r.map f = .ok t ↔ ∃ s, r = .ok s ∧ f s = t := by
  cases r <;> simp [Res.map]

theorem Res.Sat.of_ok {P : σ → Prop} {Q : Msg → σ → Prop} {r : Res σ} {s : σ}
    (h : r.Sat P Q) (hr : r = .ok s) : P s := by
  subst hr; exact h

theorem Res.Sat.of_stop {P : σ → Prop} {Q : Msg → σ → Prop} {r : Res σ} {m : Msg} {s : σ}
    (h : r.Sat P Q) (hr : r = .stop m s) : Q m s := by
  subst hr; exact h

theorem Res.Sat.mono {P P' : σ → Prop} {Q Q' : Msg → σ → Prop} {r : Res σ}
    (h : r.Sat P Q) (hP : ∀ s, P s → P' s) (hQ : ∀ m s, Q m s → Q' m s) : r.Sat P' Q' := by
  cases r with
  | ok s => exact hP s h
  | stop m s => exact hQ m s h
  | undefined => trivial

theorem Res.Sat.bind {P P' : σ → Prop} {Q : Msg → σ → Prop} {r : Res σ} {f : σ → Res σ}
    (h : r.Sat P Q) (hf : ∀ s, P s → (f s).Sat P' Q) : (r.bind f).Sat P' Q := by
  cases r with
  | ok s => exact hf s h
  | stop m s => exact h
  | undefined => trivial

theorem Res.Sat.map {P : τ → Prop} {Q : Msg → τ → Prop} {r : Res σ} {f : σ → τ}
    (h : r.Sat (fun s => P (f s)) (fun m s => Q m (f s))) : (r.map f).Sat P Q := by
  cases r with
  | ok s => exact h
  | stop m s => exact h
  | undefined => trivial

/-- Invariant rule for the upward loop. -/
theorem forLoop_sat (P : Nat → σ → Prop) (Q : Msg → σ → Prop) (body : Nat → σ → Res σ)
    (N : Nat) (s0 : σ) (h0 : P 0 s0)
    (hstep : ∀ i s, i < N → P i s → (body i s).Sat (P (i + 1)) Q) :
    (forLoop body N s0).Sat (P N) Q := by
  induction N with
  | zero => exact h0
  | succ M ih =>
    have h1 := ih (fun i s hi hp => hstep i s (Nat.lt_succ_of_lt hi) hp)
    exact h1.bind (fun s hs => hstep M s (Nat.lt_succ_self M) hs)

/-- Total-correctness rule for the upward loop: when every iteration completes normally
under the invariant, so does the loop. -/
theorem forLoop_total (P : Nat → σ → Prop) (body : Nat → σ → Res σ)
    (N : Nat) (s0 : σ) (h0 : P 0 s0)
    (hstep : ∀ i s, i < N → P i s → ∃ s', body i s = .ok s' ∧ P (i + 1) s') :
    ∃ s', forLoop body N s0 = .ok s' ∧ P N s' := by
  induction N with
  | zero => exact ⟨s0, rfl, h0⟩
  | succ M ih =>
    obtain ⟨s1, h1, hp1⟩ := ih (fun i s hi hp => hstep i s (Nat.lt_succ_of_lt hi) hp)
    obtain ⟨s2, h2, hp2⟩ := hstep M s1 (Nat.lt_succ_self M) hp1
    exact ⟨s2, by simp [forLoop, h1, Res.bind, h2], hp2⟩

/-- Invariant rule for the downward loop; the invariant is indexed by the number of
iterations still to run. -/
theorem downLoop_sat (P : Nat → σ → Prop) (Q : Msg → σ → Prop) (body : Nat → σ → Res σ)
    (N : Nat) (s0 : σ) (h0 : P N s0)
    (hstep : ∀ i s, i < N → P (i + 1) s → (body i s).Sat (P i) Q) :
    (downLoop body N s0).Sat (P 0) Q := by
  induction N generalizing s0 with
  | zero => exact h0
  | succ M ih =>
    have h1 := hstep M s0 (Nat.lt_succ_self M) h0
    exact h1.bind (fun s hs => ih s hs (fun i s hi hp => hstep i s (Nat.lt_succ_of_lt hi) hp))

end Loops

section Vectors

variable {α : Type}

theorem getI_eq_some {xs : List α} {i : Int} {a : α} :
    getI xs i = some a ↔ 0 ≤ i ∧ xs[i.toNat]? = some a := by
  unfold getI
  split
  · simp; omega
  · simp; intro; omega

theorem getI_natCast (xs : List α) (i : Nat) : getI xs (i : Int) = xs[i]? := by
  simp [getI]

theorem setI_eq_some {xs ys : List α} {i : Int} {v : α} :
    setI xs i v = some ys ↔ 0 ≤ i ∧ i.toNat < xs.length ∧ ys = xs.set i.toNat v := by
  unfold setI
  split
  · simp; omega
  · split
    · rename_i h1 h2
      constructor
      · intro h; exact ⟨by omega, h2, by simpa [eq_comm] using h⟩
      · intro h; simpa [eq_comm] using h.2.2
    · simp; intro _ h; omega

theorem setI_natCast (xs : List α) (i : Nat) (v : α) (h : i < xs.length) :
    setI xs (i : Int) v = some (xs.set i v) := by
  simp [setI, h]

theorem set_getElem?_self {xs : List α} {i : Nat} {a : α} (h : xs[i]? = some a) :
    xs.set i a = xs := by
  apply List.ext_getElem?
  intro k
  by_cases hk : i = k
  · subst hk
    have hlt : i < xs.length := by
      rcases Nat.lt_or_ge i xs.length with h1 | h1
      · exact h1
      · simp [List.getElem?_eq_none h1] at h
    rw [List.getElem?_set_self hlt, h]
  · rw [List.getElem?_set_ne hk]

end Vectors

/-! ## `apply_lambda` -/

section ApplyLambda

variable {R : Type} [CommRing R] [DecidableEq R]

/-- One iteration of `apply_lambda` under the identity `theta` leaves `dest` as it is. -/
theorem lambdaStep_identity (lower : List (Option R)) (theta x : List R) (kpp : Nat)
    (hlow : kpp ≤ lower.length) (hx : kpp ≤ x.length)
    (h0 : lower[0]? = some (some 0))
    (hdiag : ∀ t : Nat, lower[t]? = some (some 0) → theta[t]? = some 1)
    (hoff : ∀ (t : Nat) (lt : Option R), lower[t]? = some lt → lt ≠ some 0 → theta[t]? = some 0)
    (i : Nat) (s : LamSt R) (hi : i < kpp)
    (hs : s.dest = x ∧ -1 ≤ s.dpos ∧ s.dpos < i ∧ (0 < i → 0 ≤ s.dpos ∧ s.rr = some (i - 1))) :
    ∃ s', lambdaStep lower theta i s = .ok s' ∧
      (s'.dest = x ∧ -1 ≤ s'.dpos ∧ s'.dpos < ((i + 1 : Nat) : Int) ∧
        (0 < i + 1 → 0 ≤ s'.dpos ∧ s'.rr = some (i + 1 - 1))) := by
  obtain ⟨hd, hlo, hhi, hpos⟩ := hs
  have hil : i < lower.length := lt_of_lt_of_le hi hlow
  have hlk : lower[i]? = some lower[i] := List.getElem?_eq_getElem hil
  unfold lambdaStep
  rw [hlk]
  by_cases hz : lower[i] = some 0
  · have hth : theta[i]? = some 1 := hdiag i (by rw [hlk, hz])
    have hrange : (s.dpos + 1).toNat < x.length := by omega
    have hget : getI s.dest (s.dpos + 1) = some x[(s.dpos + 1).toNat] := by
      rw [getI_eq_some, hd]
      exact ⟨by omega, List.getElem?_eq_getElem hrange⟩
    have hset : setI s.dest (s.dpos + 1) (x[(s.dpos + 1).toNat] * 1) = some x := by
      rw [setI_eq_some, hd]
      refine ⟨by omega, hrange, ?_⟩
      rw [mul_one]
      exact (set_getElem?_self (List.getElem?_eq_getElem hrange)).symm
    simp only [hz, if_true, hget, hth, hset]
    exact ⟨_, rfl, rfl, by simp; omega, by simp; omega, by simp; omega⟩
  · have hi0 : 0 < i := by
      rcases Nat.eq_zero_or_pos i with h | h
      · subst h
        rw [hlk] at h0
        exact absurd (Option.some.inj h0) hz
      · exact h
    obtain ⟨hdp, hrr⟩ := hpos hi0
    have hth : theta[i]? = some 0 := hoff i _ hlk hz
    have hrange : s.dpos.toNat < x.length := by omega
    have hget : getI s.dest s.dpos = some x[s.dpos.toNat] := by
      rw [getI_eq_some, hd]
      exact ⟨hdp, List.getElem?_eq_getElem hrange⟩
    have hix : i < x.length := lt_of_lt_of_le hi hx
    have hrd : s.dest[i - 1 + 1]? = some x[i] := by
      rw [hd]
      have : i - 1 + 1 = i := by omega
      rw [this]
      exact List.getElem?_eq_getElem hix
    have hset : setI s.dest s.dpos (x[s.dpos.toNat] + 0 * x[i]) = some x := by
      rw [setI_eq_some, hd]
      refine ⟨hdp, hrange, ?_⟩
      rw [zero_mul, add_zero]
      exact (set_getElem?_self (List.getElem?_eq_getElem hrange)).symm
    simp only [hz, if_false, hrr, hget, hth, hrd, hset]
    refine ⟨_, rfl, rfl, hlo, by simp; omega, fun _ => ⟨hdp, ?_⟩⟩
    simp
    omega

/-- **C10** Identity theta is a no-op for `apply_lambda`: when `lower[0] = 0`, `theta` has
the length of `lower`, is `1` at every position where `lower` is zero and `0` at every
other position, then `apply_lambda(theta, block)` completes and returns `block` with each
of its entries equal to its input value. -/
theorem apply_lambda_identity (obj : RSC R) (theta block : List R)
    (hlow : obj.kpp ≤ obj.lower.length) (hblock : block.length = obj.kpp)
    (hlen : theta.length = obj.lower.length)
    (h0 : obj.lower[0]? = some (some 0))
    (hdiag : ∀ t : Nat, obj.lower[t]? = some (some 0) → theta[t]? = some 1)
    (hoff : ∀ (t : Nat) (lt : Option R), obj.lower[t]? = some lt → lt ≠ some 0 → theta[t]? = some 0) :
    apply_lambda obj theta block = .ok block := by
  have := hlen
  obtain ⟨s', hs', hP, -⟩ := forLoop_total
    (fun (i : Nat) (s : LamSt R) =>
      s.dest = block ∧ -1 ≤ s.dpos ∧ s.dpos < (i : Int) ∧ (0 < i → 0 ≤ s.dpos ∧ s.rr = some (i - 1)))
    (lambdaStep obj.lower theta) obj.kpp { dpos := -1, rr := none, dest := block }
    ⟨rfl, le_refl _, by simp, fun h => absurd h (lt_irrefl 0)⟩
    (fun i s hi hs =>
      lambdaStep_identity obj.lower theta block obj.kpp hlow (le_of_eq hblock.symm) h0 hdiag hoff
        i s hi hs)
  unfold apply_lambda
  rw [hs']
  simp [Res.map, hP]

/-- The identity-theta theorem applied to one 2 x 2 block followed by a fixed effect. -/
theorem apply_lambda_identity_witness :
    RSC.new exBlock.rv exBlock.xv exBlock.lower = .ok exBlock ∧
      apply_lambda exBlock [1, 0, 1] [2, 3, 5] = .ok [2, 3, 5] :=
  ⟨by decide, apply_lambda_identity exBlock [1, 0, 1] [2, 3, 5] (by decide) (by decide) (by decide)
    (by decide)
    (fun t h => by
      rcases t with _ | _ | _ | t
      · rfl
      · exact absurd h (by decide)
      · rfl
      · exact absurd h (by simp [exBlock]))
    (fun t lt h hne => by
      rcases t with _ | _ | _ | t
      · exact absurd (Option.some.inj h).symm hne
      · rfl
      · exact absurd (Option.some.inj h).symm hne
      · exact absurd h (by simp [exBlock]))⟩

end ApplyLambda

/-! ## `update_A`: lengths and messages -/

section Frame

variable {R : Type} [CommRing R] [DecidableEq R]

theorem setI_length {α : Type} {xs ys : List α} {i : Int} {v : α} (h : setI xs i v = some ys) :
    ys.length = xs.length := by
  rw [setI_eq_some] at h
  rw [h.2.2, List.length_set]

/-- The seed step keeps the length of `nzval` and can only stop with the upper-triangle
message, leaving `nzval` as it found it. -/
theorem seedStep_sat (colptr rowval : List Int) (i : Nat) (nzval : List R) :
    (seedStep colptr rowval i nzval).Sat (fun nz => nz.length = nzval.length)
      (fun m nz => m = .notUpper ∧ nz = nzval) := by
  unfold seedStep
  split
  · trivial
  · dsimp only
    split
    · trivial
    · split
      · exact ⟨rfl, rfl⟩
      · split
        · rename_i h; exact setI_length h
        · trivial

/-- The `ubeta` step keeps the length of `ubeta` and never stops. -/
theorem ubetaStep_sat (obj : RSC R) (j : Nat) (rj : R) (w : List R) (i : Nat) (ubeta : List R) :
    (ubetaStep obj j rj w i ubeta).Sat (fun ub => ub.length = ubeta.length)
      (fun _ _ => False) := by
  unfold ubetaStep
  split
  · split
    · split
      · rename_i h; exact setI_length h
      · trivial
    · trivial
  · trivial

/-- The off-diagonal loop keeps the length of `nzval` and can only stop with the
pattern-mismatch message. -/
theorem offLoop_sat (obj : RSC R) (rowval : List Int) (j : Nat) (w : List R) (cpi : Int)
    (wi : R) (l : Nat) (ll : Int) (nzval : List R) :
    (offLoop obj rowval j w cpi wi l ll nzval).Sat (fun nz => nz.length = nzval.length)
      (fun m nz => m = .patternMismatch ∧ nz.length = nzval.length) := by
  induction l generalizing ll nzval with
  | zero => exact rfl
  | succ l ih =>
    unfold offLoop
    split
    · exact rfl
    · split
      · trivial
      · split
        · trivial
        · split
          · split
            · exact ⟨rfl, rfl⟩
            · split
              · rename_i h
                have hl := setI_length h
                exact (ih _ _).mono (fun s hs => hs.trans hl) (fun m s hs => ⟨hs.1, hs.2.trans hl⟩)
              · trivial
          · split
            · exact ⟨rfl, rfl⟩
            · trivial
          · trivial

/-- A scan step keeps the length of `nzval` and can only stop with one of the two
messages of the scan. -/
theorem scanStep_sat (obj : RSC R) (colptr rowval : List Int) (j : Nat) (w : List R) (i : Nat)
    (nzval : List R) :
    (scanStep obj colptr rowval j w i nzval).Sat (fun nz => nz.length = nzval.length)
      (fun m nz => (m = .uNotUpper ∨ m = .patternMismatch) ∧ nz.length = nzval.length) := by
  unfold scanStep
  split
  · trivial
  · split
    · dsimp only
      split
      · trivial
      · split
        · exact ⟨Or.inl rfl, rfl⟩
        · split
          · split
            · rename_i h
              have hl := setI_length h
              exact (offLoop_sat obj rowval j w _ _ i _ _).mono (fun s hs => hs.trans hl)
                (fun m s hs => ⟨Or.inr hs.1, hs.2.trans hl⟩)
            · trivial
          · trivial
    · trivial

/-- One observation keeps the lengths of both buffers and can only stop with one of the
two messages of the scan. -/
theorem obsStep_sat (obj : RSC R) (theta resid : List R) (colptr rowval : List Int) (j : Nat)
    (s : St R) :
    (obsStep obj theta resid colptr rowval j s).Sat (fun t => s.SameLen t)
      (fun m t => (m = .uNotUpper ∨ m = .patternMismatch) ∧ s.SameLen t) := by
  unfold obsStep
  split
  · split
    · rename_i rj w0 _ _ _ w _
      have h1 := forLoop_sat (fun _ (ub : List R) => ub.length = s.ubeta.length)
        (fun _ _ => False) (ubetaStep obj j rj w) obj.kpp s.ubeta rfl
        (fun i ub _ h => (ubetaStep_sat obj j rj w i ub).mono (fun _ hs => hs.trans h)
          (fun _ _ hs => hs))
      refine Res.Sat.bind (P := fun t => s.SameLen t) ?_ ?_
      · apply Res.Sat.map
        exact h1.mono (fun ub h => ⟨rfl, h⟩) (fun _ _ h => h.elim)
      · intro s1 hs1
        apply Res.Sat.map
        have h2 := downLoop_sat (fun _ (nz : List R) => nz.length = s1.nzval.length)
          (fun m nz => (m = .uNotUpper ∨ m = .patternMismatch) ∧ nz.length = s1.nzval.length)
          (scanStep obj colptr rowval j w) obj.kpp s1.nzval rfl
          (fun i nz _ h => (scanStep_sat obj colptr rowval j w i nz).mono
            (fun _ hs => hs.trans h) (fun _ _ hs => ⟨hs.1, hs.2.trans h⟩))
        exact h2.mono (fun nz h => ⟨h.trans hs1.1, hs1.2⟩)
          (fun m nz h => ⟨h.1, h.2.trans hs1.1, hs1.2⟩)
    · trivial
  · trivial

end Frame

/-! ## `update_A`: the precondition checks -/

section Checks

variable {R : Type} [CommRing R] [DecidableEq R]

/-- When the five checks pass, `update_A` is the seed loop followed by the loop over
observations, both started from zeroed buffers. -/
theorem update_A_checked (obj : RSC R) (theta resid : List R) (A : dsCMatrix R)
    (ubeta : List R) (h1 : theta.length = obj.lower.length)
    (h2 : (resid.length : Int) = (obj.n : Int)) (h3 : (ubeta.length : Int) = obj.q + obj.p)
    (h4 : A.isDsC = true) (h5 : A.nrow = obj.q + obj.p) :
    update_A obj theta resid A ubeta =
      ((forLoop (seedStep A.colptr A.rowval) obj.q.toNat
          (List.replicate A.nzval.length (0 : R))).map
        (fun nz => ({ nzval := nz, ubeta := List.replicate ubeta.length 0 } : St R))).bind
      (forLoop (obsStep obj theta resid A.colptr A.rowval) obj.n) := by
  simp [update_A, zeroed, h1, h2, h3, h4, h5]

/-- The seed loop keeps the length of `nzval` and can only stop with the upper-triangle
message. -/
theorem seedLoop_sat (colptr rowval : List Int) (N : Nat) (nzval : List R) :
    (forLoop (seedStep colptr rowval) N nzval).Sat (fun nz => nz.length = nzval.length)
      (fun m nz => m = .notUpper ∧ nz.length = nzval.length) :=
  forLoop_sat (fun _ (nz : List R) => nz.length = nzval.length) _ _ N nzval rfl
    (fun i nz _ h => (seedStep_sat colptr rowval i nz).mono (fun _ hs => hs.trans h)
      (fun _ _ hs => ⟨hs.1, by rw [hs.2]; exact h⟩))

/-- The loop over observations keeps the lengths of both buffers and can only stop with
one of the two messages of the scan. -/
theorem obsLoop_sat (obj : RSC R) (theta resid : List R) (colptr rowval : List Int) (N : Nat)
    (s : St R) :
    (forLoop (obsStep obj theta resid colptr rowval) N s).Sat (fun t => s.SameLen t)
      (fun m t => (m = .uNotUpper ∨ m = .patternMismatch) ∧ s.SameLen t) :=
  forLoop_sat (fun _ (t : St R) => s.SameLen t) _ _ N s ⟨rfl, rfl⟩
    (fun i t _ h => (obsStep_sat obj theta resid colptr rowval i t).mono
      (fun _ hs => ⟨hs.1.trans h.1, hs.2.trans h.2⟩)
      (fun _ _ hs => ⟨hs.1, hs.2.1.trans h.1, hs.2.2.trans h.2⟩))

/-- After the five checks `update_A` keeps the lengths of both buffers and can only stop
with one of the three pattern messages. -/
theorem update_A_sat_checked (obj : RSC R) (theta resid : List R) (A : dsCMatrix R)
    (ubeta : List R) (h1 : theta.length = obj.lower.length)
    (h2 : (resid.length : Int) = (obj.n : Int)) (h3 : (ubeta.length : Int) = obj.q + obj.p)
    (h4 : A.isDsC = true) (h5 : A.nrow = obj.q + obj.p) :
    (update_A obj theta resid A ubeta).Sat
      (fun t => St.SameLen { nzval := A.nzval, ubeta := ubeta } t)
      (fun m t => (m = .notUpper ∨ m = .uNotUpper ∨ m = .patternMismatch) ∧
        St.SameLen { nzval := A.nzval, ubeta := ubeta } t) := by
  rw [update_A_checked obj theta resid A ubeta h1 h2 h3 h4 h5]
  refine Res.Sat.bind (P := fun t => St.SameLen { nzval := A.nzval, ubeta := ubeta } t) ?_ ?_
  · apply Res.Sat.map
    exact (seedLoop_sat A.colptr A.rowval obj.q.toNat _).mono
      (fun nz h => ⟨by simpa using h, by simp⟩)
      (fun m nz h => ⟨Or.inl h.1, by simpa using h.2, by simp⟩)
  · intro s hs
    exact (obsLoop_sat obj theta resid A.colptr A.rowval obj.n s).mono
      (fun t ht => ⟨ht.1.trans hs.1, ht.2.trans hs.2⟩)
      (fun m t ht => ⟨Or.inr ht.1, ht.2.1.trans hs.1, ht.2.2.trans hs.2⟩)

/-- In every outcome that has a state, `update_A` leaves both buffers with the lengths
they had. -/
theorem update_A_sameLen (obj : RSC R) (theta resid : List R) (A : dsCMatrix R)
    (ubeta : List R) :
    (update_A obj theta resid A ubeta).Sat
      (fun t => St.SameLen { nzval := A.nzval, ubeta := ubeta } t)
      (fun _ t => St.SameLen { nzval := A.nzval, ubeta := ubeta } t) := by
  by_cases h1 : theta.length = obj.lower.length
  · by_cases h2 : (resid.length : Int) = (obj.n : Int)
    · by_cases h3 : (ubeta.length : Int) = obj.q + obj.p
      · by_cases h4 : A.isDsC = true
        · by_cases h5 : A.nrow = obj.q + obj.p
          · exact (update_A_sat_checked obj theta resid A ubeta h1 h2 h3 h4 h5).mono
              (fun _ h => h) (fun _ _ h => h.2)
          · simp [update_A, h1, h2, h3, h4, h5, Res.Sat, St.SameLen]
        · simp [update_A, h1, h2, h3, h4, Res.Sat, St.SameLen]
      · simp [update_A, h1, h2, h3, Res.Sat, St.SameLen]
    · simp [update_A, h1, h2, Res.Sat, St.SameLen]
  · simp [update_A, h1, Res.Sat, St.SameLen]

/-- **C7** The dimension preconditions of `update_A` are validated in order, each with an
error of its own: the theta/lower error is raised exactly when `theta.size() != lower.size()`;
otherwise the resid error exactly when `resid.size() != n`; otherwise the ubeta error exactly
when `ubeta.size() != q + p`; otherwise a matrix error (class or order) exactly when `A` is
not a `dsCMatrix` of order `q + p`; the texts of these errors are pairwise different; and
none of them is raised when all four conditions hold. -/
theorem update_A_dimension_checks (obj : RSC R) (theta resid : List R) (A : dsCMatrix R)
    (ubeta : List R) :
    ((∃ s, update_A obj theta resid A ubeta = .stop .thetaLower s) ↔
        theta.length ≠ obj.lower.length) ∧
      (theta.length = obj.lower.length →
        ((∃ s, update_A obj theta resid A ubeta = .stop .residN s) ↔
          (resid.length : Int) ≠ (obj.n : Int))) ∧
      (theta.length = obj.lower.length → (resid.length : Int) = (obj.n : Int) →
        ((∃ s, update_A obj theta resid A ubeta = .stop .ubetaQP s) ↔
          (ubeta.length : Int) ≠ obj.q + obj.p)) ∧
      (theta.length = obj.lower.length → (resid.length : Int) = (obj.n : Int) →
        (ubeta.length : Int) = obj.q + obj.p →
        ((∃ s, update_A obj theta resid A ubeta = .stop .notDsC s ∨
              update_A obj theta resid A ubeta = .stop .sizeA s) ↔
          ¬ (A.isDsC = true ∧ A.nrow = obj.q + obj.p))) ∧
      ([Msg.thetaLower, Msg.residN, Msg.ubetaQP, Msg.notDsC, Msg.sizeA].map Msg.text).Nodup ∧
      (theta.length = obj.lower.length → (resid.length : Int) = (obj.n : Int) →
        (ubeta.length : Int) = obj.q + obj.p → A.isDsC = true ∧ A.nrow = obj.q + obj.p →
        ∀ m s, update_A obj theta resid A ubeta = .stop m s →
          m ∉ [Msg.thetaLower, Msg.residN, Msg.ubetaQP, Msg.notDsC, Msg.sizeA]) := by
  have key : ∀ (h1 : theta.length = obj.lower.length)
      (h2 : (resid.length : Int) = (obj.n : Int)) (h3 : (ubeta.length : Int) = obj.q + obj.p)
      (h4 : A.isDsC = true) (h5 : A.nrow = obj.q + obj.p) (m : Msg) (s : St R),
      update_A obj theta resid A ubeta = .stop m s →
        m = .notUpper ∨ m = .uNotUpper ∨ m = .patternMismatch :=
    fun h1 h2 h3 h4 h5 m s h =>
      ((update_A_sat_checked obj theta resid A ubeta h1 h2 h3 h4 h5).of_stop h).1
  refine ⟨?_, ?_, ?_, ?_, by decide, ?_⟩
  · by_cases h1 : theta.length = obj.lower.length
    · simp only [h1, ne_eq, not_true_eq_false, iff_false, not_exists]
      intro s hs
      by_cases h2 : (resid.length : Int) = (obj.n : Int)
      · by_cases h3 : (ubeta.length : Int) = obj.q + obj.p
        · by_cases h4 : A.isDsC = true
          · by_cases h5 : A.nrow = obj.q + obj.p
            · rcases key h1 h2 h3 h4 h5 _ _ hs with h | h | h <;> exact absurd h (by decide)
            · simp [update_A, h1, h2, h3, h4, h5] at hs
          · simp [update_A, h1, h2, h3, h4] at hs
        · simp [update_A, h1, h2, h3] at hs
      · simp [update_A, h1, h2] at hs
    · simp [update_A, h1]
  · intro h1
    by_cases h2 : (resid.length : Int) = (obj.n : Int)
    · simp only [h2, ne_eq, not_true_eq_false, iff_false, not_exists]
      intro s hs
      by_cases h3 : (ubeta.length : Int) = obj.q + obj.p
      · by_cases h4 : A.isDsC = true
        · by_cases h5 : A.nrow = obj.q + obj.p
          · rcases key h1 h2 h3 h4 h5 _ _ hs with h | h | h <;> exact absurd h (by decide)
          · simp [update_A, h1, h2, h3, h4, h5] at hs
        · simp [update_A, h1, h2, h3, h4] at hs
      · simp [update_A, h1, h2, h3] at hs
    · simp [update_A, h1, h2]
  · intro h1 h2
    by_cases h3 : (ubeta.length : Int) = obj.q + obj.p
    · simp only [h3, ne_eq, not_true_eq_false, iff_false, not_exists]
      intro s hs
      by_cases h4 : A.isDsC = true
      · by_cases h5 : A.nrow = obj.q + obj.p
        · rcases key h1 h2 h3 h4 h5 _ _ hs with h | h | h <;> exact absurd h (by decide)
        · simp [update_A, h1, h2, h3, h4, h5] at hs
      · simp [update_A, h1, h2, h3, h4] at hs
    · simp [update_A, h1, h2, h3]
  · intro h1 h2 h3
    by_cases h4 : A.isDsC = true
    · by_cases h5 : A.nrow = obj.q + obj.p
      · simp only [h4, h5, and_self, not_true_eq_false, iff_false, not_exists]
        intro s hs
        rcases hs with hs | hs <;>
          rcases key h1 h2 h3 h4 h5 _ _ hs with h | h | h <;> exact absurd h (by decide)
      · simp [update_A, h1, h2, h3, h4, h5]
    · simp [update_A, h1, h2, h3, h4]
  · intro h1 h2 h3 h45 m s hs
    rcases key h1 h2 h3 h45.1 h45.2 m s hs with h | h | h <;> subst h <;> decide

end Checks

/-! ## `update_A`: the scatter-add into `ubeta` -/

section Ubeta

variable {R : Type} [CommRing R] [DecidableEq R]

theorem getD_set {α : Type} (xs : List α) (i c : Nat) (v d : α) (hi : i < xs.length) :
    (xs.set i v).getD c d = if c = i then v else xs.getD c d := by
  rw [List.getD_eq_getElem?_getD, List.getD_eq_getElem?_getD, List.getElem?_set]
  by_cases h : i = c
  · subst h; simp [hi]
  · have h' : ¬ c = i := fun e => h e.symm
    simp [h, h']

/-- A normal completion of `update_A` means that the five checks passed. -/
theorem update_A_ok_checks {obj : RSC R} {theta resid : List R} {A : dsCMatrix R}
    {ubeta : List R} {s : St R} (h : update_A obj theta resid A ubeta = .ok s) :
    theta.length = obj.lower.length ∧ (resid.length : Int) = (obj.n : Int) ∧
      (ubeta.length : Int) = obj.q + obj.p ∧ A.isDsC = true ∧ A.nrow = obj.q + obj.p := by
  by_cases h1 : theta.length = obj.lower.length
  · by_cases h2 : (resid.length : Int) = (obj.n : Int)
    · by_cases h3 : (ubeta.length : Int) = obj.q + obj.p
      · by_cases h4 : A.isDsC = true
        · by_cases h5 : A.nrow = obj.q + obj.p
          · exact ⟨h1, h2, h3, h4, h5⟩
          · simp [update_A, h1, h2, h3, h4, h5] at h
        · simp [update_A, h1, h2, h3, h4] at h
      · simp [update_A, h1, h2, h3] at h
    · simp [update_A, h1, h2] at h
  · simp [update_A, h1] at h

/-- Effect of one `ubeta[rv(i,j)] += rj * w[i]` on every entry of `ubeta`. -/
theorem ubetaStep_getD (obj : RSC R) (j : Nat) (rj : R) (w : List R) (i : Nat)
    (ubeta : List R) :
    (ubetaStep obj j rj w i ubeta).Sat
      (fun ub => ∀ c : Nat, ub.getD c 0 = ubeta.getD c 0 +
        (if obj.rv.at i j = some (c : Int) then rj * w.getD i 0 else 0))
      (fun _ _ => False) := by
  unfold ubetaStep
  split
  · rename_i cc wi hrv hw
    split
    · rename_i u hu
      split
      · rename_i ub hset
        intro c
        rw [setI_eq_some] at hset
        rw [getI_eq_some] at hu
        obtain ⟨hc0, hlt, hub⟩ := hset
        have hwi : w.getD i 0 = wi := by rw [List.getD_eq_getElem?_getD, hw]; rfl
        have hud : ubeta.getD cc.toNat 0 = u := by rw [List.getD_eq_getElem?_getD, hu.2]; rfl
        rw [hub, getD_set _ _ _ _ _ hlt, hrv, hwi]
        by_cases hc : c = cc.toNat
        · subst hc
          have hcast : ((cc.toNat : Nat) : Int) = cc := Int.toNat_of_nonneg hc0
          rw [if_pos rfl, hcast, if_pos rfl, hud]
        · have hne : ¬ (some cc = some (c : Int)) := by
            intro e
            have := Option.some.inj e
            omega
          rw [if_neg hc, if_neg hne, add_zero]
      · trivial
    · trivial
  · trivial

/-- Effect of the whole loop `for (i < N) ubeta[rv(i,j)] += rj * w[i]`. -/
theorem ubetaLoop_getD (obj : RSC R) (j : Nat) (rj : R) (w : List R) (N : Nat)
    (ubeta : List R) :
    (forLoop (ubetaStep obj j rj w) N ubeta).Sat
      (fun ub => ∀ c : Nat, ub.getD c 0 = ubeta.getD c 0 +
        ∑ i in Finset.range N, (if obj.rv.at i j = some (c : Int) then rj * w.getD i 0 else 0))
      (fun _ _ => False) :=
  forLoop_sat
    (fun (M : Nat) (ub : List R) => ∀ c : Nat, ub.getD c 0 = ubeta.getD c 0 +
      ∑ i in Finset.range M, (if obj.rv.at i j = some (c : Int) then rj * w.getD i 0 else 0))
    _ _ N ubeta (fun c => by simp)
    (fun i ub _ h => (ubetaStep_getD obj j rj w i ub).mono
      (fun ub1 h1 c => by rw [h1 c, h c, Finset.sum_range_succ, add_assoc])
      (fun _ _ hs => hs))

/-- What a normally completed observation step did: the transformed column exists, and
`ubeta` received the contributions of observation `j`. -/
theorem obsStep_ubeta (obj : RSC R) (theta resid : List R) (colptr rowval : List Int)
    (j : Nat) (s : St R) :
    (obsStep obj theta resid colptr rowval j s).Sat
      (fun t => (∃ w0, xvCol obj j = some w0 ∧
          apply_lambda obj theta w0 = .ok (lambdaCol obj theta j)) ∧
        ∀ c : Nat, t.ubeta.getD c 0 = s.ubeta.getD c 0 +
          ∑ i in Finset.range obj.kpp, (if obj.rv.at i j = some (c : Int)
            then resid.getD j 0 * (lambdaCol obj theta j).getD i 0 else 0))
      (fun _ _ => True) := by
  unfold obsStep
  split
  · split
    · rename_i rj w0 hr hx _ w hw
      have hcol : lambdaCol obj theta j = w := by simp [lambdaCol, hx, hw]
      have hrj : resid.getD j 0 = rj := by rw [List.getD_eq_getElem?_getD, hr]; rfl
      rw [hcol, hrj]
      refine Res.Sat.bind (P := fun t => (∃ w0, xvCol obj j = some w0 ∧
          apply_lambda obj theta w0 = .ok w) ∧
        ∀ c : Nat, t.ubeta.getD c 0 = s.ubeta.getD c 0 +
          ∑ i in Finset.range obj.kpp, (if obj.rv.at i j = some (c : Int)
            then rj * w.getD i 0 else 0)) ?_ ?_
      · apply Res.Sat.map
        exact (ubetaLoop_getD obj j rj w obj.kpp s.ubeta).mono
          (fun ub h => ⟨⟨w0, hx, hw⟩, h⟩) (fun _ _ _ => trivial)
      · intro s1 hs1
        apply Res.Sat.map
        cases downLoop (scanStep obj colptr rowval j w) obj.kpp s1.nzval with
        | ok nz => exact hs1
        | stop m nz => trivial
        | undefined => trivial
    · trivial
  · trivial

/-- The invariant of the loop over observations for `ubeta`. -/
theorem obsLoop_ubeta (obj : RSC R) (theta resid : List R) (colptr rowval : List Int)
    (N : Nat) (s : St R) :
    (forLoop (obsStep obj theta resid colptr rowval) N s).Sat
      (fun t => (∀ j, j < N → ∃ w0, xvCol obj j = some w0 ∧
          apply_lambda obj theta w0 = .ok (lambdaCol obj theta j)) ∧
        ∀ c : Nat, t.ubeta.getD c 0 = s.ubeta.getD c 0 +
          ∑ j in Finset.range N, ∑ i in Finset.range obj.kpp,
            (if obj.rv.at i j = some (c : Int)
              then resid.getD j 0 * (lambdaCol obj theta j).getD i 0 else 0))
      (fun _ _ => True) :=
  forLoop_sat
    (fun (M : Nat) (t : St R) => (∀ j, j < M → ∃ w0, xvCol obj j = some w0 ∧
          apply_lambda obj theta w0 = .ok (lambdaCol obj theta j)) ∧
        ∀ c : Nat, t.ubeta.getD c 0 = s.ubeta.getD c 0 +
          ∑ j in Finset.range M, ∑ i in Finset.range obj.kpp,
            (if obj.rv.at i j = some (c : Int)
              then resid.getD j 0 * (lambdaCol obj theta j).getD i 0 else 0))
    _ _ N s ⟨fun j hj => absurd hj (Nat.not_lt_zero j), fun c => by simp⟩
    (fun M t _ h => (obsStep_ubeta obj theta resid colptr rowval M t).mono
      (fun t1 h1 => ⟨fun j hj => by
          rcases Nat.lt_succ_iff_lt_or_eq.mp hj with hlt | heq
          · exact h.1 j hlt
          · subst heq; exact h1.1,
        fun c => by rw [h1.2 c, h.2 c, Finset.sum_range_succ, add_assoc]⟩)
      (fun _ _ _ => trivial))

/-- **C3** The scatter-add into `ubeta`: whenever `update_A` completes normally, every
observation `j < n` has a transformed column `w_j = apply_lambda(theta, column j of xv)`, and
for every index `c` in `[0, q + p)` the final `ubeta[c]` is the sum, over the observations
`j < n` and the rows `i < kpp` with `rv(i,j) = c`, of `resid[j] * w_j[i]` (so it is `0` when
no pair `(i,j)` maps to `c`). -/
theorem update_A_ubeta (obj : RSC R) (theta resid : List R) (A : dsCMatrix R)
    (ubeta : List R) (s : St R) (h : update_A obj theta resid A ubeta = .ok s)
    (c : Nat) (hc : (c : Int) < obj.q + obj.p) :
    (∀ j, j < obj.n → ∃ w0, xvCol obj j = some w0 ∧
        apply_lambda obj theta w0 = .ok (lambdaCol obj theta j)) ∧
      s.ubeta[c]? = some (∑ j in Finset.range obj.n, ∑ i in Finset.range obj.kpp,
        (if obj.rv.at i j = some (c : Int)
          then resid.getD j 0 * (lambdaCol obj theta j).getD i 0 else 0)) := by
  obtain ⟨h1, h2, h3, h4, h5⟩ := update_A_ok_checks h
  have hlen := ((update_A_sat_checked obj theta resid A ubeta h1 h2 h3 h4 h5).of_ok h).2
  rw [update_A_checked obj theta resid A ubeta h1 h2 h3 h4 h5, Res.bind_eq_ok] at h
  obtain ⟨s1, hs1, hloop⟩ := h
  rw [Res.map_eq_ok] at hs1
  obtain ⟨nz1, -, hs1⟩ := hs1
  have hinv := (obsLoop_ubeta obj theta resid A.colptr A.rowval obj.n s1).of_ok hloop
  refine ⟨hinv.1, ?_⟩
  have hval := hinv.2 c
  have hzero : s1.ubeta.getD c 0 = 0 := by
    rw [← hs1]
    simp [List.getD_eq_getElem?_getD, List.getElem?_replicate]
    split <;> rfl
  rw [hzero, zero_add] at hval
  have hlt : c < s.ubeta.length := by
    have : s.ubeta.length = ubeta.length := hlen
    omega
  rw [← hval, List.getD_eq_getElem?_getD, List.getElem?_eq_getElem hlt]
  rfl

/-- The `ubeta` theorem applied to one observation on the full 2 x 2 upper triangle. -/
theorem update_A_ubeta_witness :
    update_A exPair [1, 1] [5] exUpper [9, 9] = .ok { nzval := [5, 7, 9], ubeta := [10, 15] } ∧
      ([10, 15] : List Int)[1]? = some (∑ j in Finset.range exPair.n,
        ∑ i in Finset.range exPair.kpp,
          (if exPair.rv.at i j = some ((1 : Nat) : Int)
            then ([5] : List Int).getD j 0 * (lambdaCol exPair [1, 1] j).getD i 0 else 0)) :=
  ⟨by decide,
    (update_A_ubeta exPair [1, 1] [5] exUpper [9, 9] { nzval := [5, 7, 9], ubeta := [10, 15] }
      (by decide) 1 (by decide)).2⟩

end Ubeta

/-! ## `update_A`: linearity in `resid` -/

section Linearity

variable {R : Type} [CommRing R] [DecidableEq R]

/-- Simulation rule for the upward loop: when each normally completed iteration of `b1` is
matched by `b2` on the image of the state under `f`, so is each normally completed loop. -/
theorem forLoop_sim_ok {σ τ : Type} (f : σ → τ) (b1 : Nat → σ → Res σ) (b2 : Nat → τ → Res τ)
    (hstep : ∀ i s s', b1 i s = .ok s' → b2 i (f s) = .ok (f s')) (N : Nat) (s s' : σ)
    (h : forLoop b1 N s = .ok s') : forLoop b2 N (f s) = .ok (f s') := by
  induction N generalizing s' with
  | zero =>
    simp only [forLoop, Res.ok.injEq] at h
    subst h
    rfl
  | succ M ih =>
    simp only [forLoop] at h ⊢
    rw [Res.bind_eq_ok] at h ⊢
    obtain ⟨s1, h1, h2⟩ := h
    exact ⟨f s1, ih s1 h1, hstep M s1 s' h2⟩

theorem getI_map {α β : Type} (f : α → β) (xs : List α) (i : Int) :
    getI (xs.map f) i = (getI xs i).map f := by
  unfold getI
  split
  · rfl
  · simp

theorem setI_map {α β : Type} (f : α → β) {xs ys : List α} {i : Int} {v : α}
    (h : setI xs i v = some ys) : setI (xs.map f) i (f v) = some (ys.map f) := by
  rw [setI_eq_some] at h ⊢
  obtain ⟨h0, hlt, hys⟩ := h
  refine ⟨h0, by simpa using hlt, ?_⟩
  rw [hys, List.map_set]

/-- Scaling `rj` and `ubeta` by `c` scales the outcome of one `ubeta` step by `c`. -/
theorem ubetaStep_scale (obj : RSC R) (j : Nat) (rj c : R) (w : List R) (i : Nat)
    (ub ub' : List R) (h : ubetaStep obj j rj w i ub = .ok ub') :
    ubetaStep obj j (c * rj) w i (ub.map (fun x => c * x)) = .ok (ub'.map (fun x => c * x)) := by
  unfold ubetaStep at h ⊢
  split at h
  · rename_i cc wi hrv hw
    split at h
    · rename_i u hu
      split at h
      · rename_i ub1 hset
        simp only [Res.ok.injEq] at h
        subst h
        have hset' := setI_map (fun x => c * x) hset
        have hu' : getI (ub.map (fun x => c * x)) cc = some (c * u) := by
          rw [getI_map, hu]; rfl
        have hv : c * u + c * rj * wi = c * (u + rj * wi) := by ring
        simp only [hrv, hw, hu', hv, hset']
      · exact absurd h (by simp)
    · exact absurd h (by simp)
  · exact absurd h (by simp)

/-- Scaling `resid` and `ubeta` by `c` scales the `ubeta` produced by one observation
by `c` and leaves its `nzval` alone. -/
theorem obsStep_scale (obj : RSC R) (theta resid : List R) (colptr rowval : List Int)
    (c : R) (j : Nat) (s s' : St R)
    (h : obsStep obj theta resid colptr rowval j s = .ok s') :
    obsStep obj theta (resid.map (fun x => c * x)) colptr rowval j
        { nzval := s.nzval, ubeta := s.ubeta.map (fun x => c * x) } =
      .ok { nzval := s'.nzval, ubeta := s'.ubeta.map (fun x => c * x) } := by
  unfold obsStep at h ⊢
  split at h
  · rename_i rj w0 hr hx
    split at h
    · rename_i w hw
      rw [Res.bind_eq_ok] at h
      obtain ⟨s1, hs1, hscan⟩ := h
      rw [Res.map_eq_ok] at hs1 hscan
      obtain ⟨ub1, hub1, hs1⟩ := hs1
      obtain ⟨nz1, hnz1, hs'⟩ := hscan
      subst hs1 hs'
      have hr' : (resid.map (fun x => c * x))[j]? = some (c * rj) := by
        rw [List.getElem?_map, hr]; rfl
      have hloop := forLoop_sim_ok (fun ub : List R => ub.map (fun x => c * x))
        (ubetaStep obj j rj w) (ubetaStep obj j (c * rj) w)
        (fun i ub ub' => ubetaStep_scale obj j rj c w i ub ub') obj.kpp s.ubeta ub1 hub1
      simp only [hr', hx, hw, hloop, Res.map, Res.bind]
      simp only at hnz1
      rw [hnz1]
    · exact absurd h (by simp)
  · exact absurd h (by simp)

/-- **C8** Linearity in `resid`: for every scalar `c`, whenever `update_A` completes normally
with the residual vector `resid`, it also completes normally with the residual vector
`c * resid` (all other inputs the same), the resulting `ubeta` is `c` times the `ubeta`
obtained with `resid`, entry by entry, and the resulting `nzval` is the same. -/
theorem update_A_resid_linear (obj : RSC R) (theta resid : List R) (A : dsCMatrix R)
    (ubeta : List R) (s : St R) (c : R) (h : update_A obj theta resid A ubeta = .ok s) :
    update_A obj theta (resid.map (fun x => c * x)) A ubeta =
      .ok { nzval := s.nzval, ubeta := s.ubeta.map (fun x => c * x) } := by
  obtain ⟨h1, h2, h3, h4, h5⟩ := update_A_ok_checks h
  have h2' : ((resid.map (fun x => c * x)).length : Int) = (obj.n : Int) := by
    rw [List.length_map]; exact h2
  rw [update_A_checked obj theta resid A ubeta h1 h2 h3 h4 h5, Res.bind_eq_ok] at h
  obtain ⟨s1, hs1, hloop⟩ := h
  rw [update_A_checked obj theta _ A ubeta h1 h2' h3 h4 h5, Res.bind_eq_ok]
  refine ⟨s1, hs1, ?_⟩
  rw [Res.map_eq_ok] at hs1
  obtain ⟨nz1, -, hs1⟩ := hs1
  have hsim := forLoop_sim_ok
    (fun t : St R => ({ nzval := t.nzval, ubeta := t.ubeta.map (fun x => c * x) } : St R))
    (obsStep obj theta resid A.colptr A.rowval)
    (obsStep obj theta (resid.map (fun x => c * x)) A.colptr A.rowval)
    (fun j t t' => obsStep_scale obj theta resid A.colptr A.rowval c j t t') obj.n s1 s hloop
  have hfix : ({ nzval := s1.nzval, ubeta := s1.ubeta.map (fun x => c * x) } : St R) = s1 := by
    rw [← hs1]
    simp
  simp only at hsim
  rw [hfix] at hsim
  exact hsim

/-- The linearity theorem applied with the scalar `3` to one observation on the full
2 x 2 upper triangle. -/
theorem update_A_resid_linear_witness :
    update_A exPair [1, 1] [5] exUpper [9, 9] = .ok { nzval := [5, 7, 9], ubeta := [10, 15] } ∧
      update_A exPair [1, 1] (([5] : List Int).map (fun x => 3 * x)) exUpper [9, 9] =
        .ok { nzval := [5, 7, 9], ubeta := ([10, 15] : List Int).map (fun x => 3 * x) } :=
  ⟨by decide,
    update_A_resid_linear exPair [1, 1] [5] exUpper [9, 9]
      { nzval := [5, 7, 9], ubeta := [10, 15] } 3 (by decide)⟩

end Linearity

/-! ## `update_A`: no state carried across calls -/

section NoLeak

variable {R : Type} [CommRing R] [DecidableEq R]

/-- The outcome of `update_A` depends on the initial contents of `A.nzval` and of `ubeta`
through their lengths only. -/
theorem update_A_outcome_lengths (obj : RSC R) (theta resid : List R) (A : dsCMatrix R)
    (nz1 nz2 ub1 ub2 : List R) (hnz : nz1.length = nz2.length)
    (hub : ub1.length = ub2.length) :
    (update_A obj theta resid { A with nzval := nz1 } ub1).outcome =
      (update_A obj theta resid { A with nzval := nz2 } ub2).outcome := by
  by_cases h1 : theta.length = obj.lower.length
  · by_cases h2 : (resid.length : Int) = (obj.n : Int)
    · by_cases h3 : (ub1.length : Int) = obj.q + obj.p
      · have h3' : (ub2.length : Int) = obj.q + obj.p := by rw [← hub]; exact h3
        by_cases h4 : A.isDsC = true
        · by_cases h5 : A.nrow = obj.q + obj.p
          · rw [update_A_checked obj theta resid { A with nzval := nz1 } ub1 h1 h2 h3 h4 h5,
              update_A_checked obj theta resid { A with nzval := nz2 } ub2 h1 h2 h3' h4 h5]
            simp only [hnz, hub]
          · simp [update_A, h1, h2, h3, h3', h4, h5, Res.outcome]
        · simp [update_A, h1, h2, h3, h3', h4, Res.outcome]
      · have h3' : ¬ (ub2.length : Int) = obj.q + obj.p := by rw [← hub]; exact h3
        simp [update_A, h1, h2, h3, h3', Res.outcome]
    · simp [update_A, h1, h2, Res.outcome]
  · simp [update_A, h1, Res.outcome]

/-- **C9** No cross-call state leakage: for any two initial contents of `A.nzval` and any two
initial contents of `ubeta` of the same lengths, `update_A` called with the same `theta`,
`resid`, object and pattern has the same outcome (the same error, or the same final `nzval`
and `ubeta`).  Consequently a call with `theta1` followed by a call with `theta2` on the
buffers the first call left has the outcome of a single call with `theta2`. -/
theorem update_A_no_leak (obj : RSC R) (theta1 theta2 resid : List R) (A : dsCMatrix R)
    (nz1 nz2 ub1 ub2 : List R) (hnz : nz1.length = nz2.length)
    (hub : ub1.length = ub2.length) :
    (update_A obj theta2 resid { A with nzval := nz1 } ub1).outcome =
        (update_A obj theta2 resid { A with nzval := nz2 } ub2).outcome ∧
      ∀ s1 : St R,
        (update_A obj theta1 resid { A with nzval := nz1 } ub1 = .ok s1 ∨
          ∃ m, update_A obj theta1 resid { A with nzval := nz1 } ub1 = .stop m s1) →
        (update_A obj theta2 resid { A with nzval := s1.nzval } s1.ubeta).outcome =
          (update_A obj theta2 resid { A with nzval := nz1 } ub1).outcome := by
  refine ⟨update_A_outcome_lengths obj theta2 resid A nz1 nz2 ub1 ub2 hnz hub, ?_⟩
  intro s1 hs1
  have hsat := update_A_sameLen obj theta1 resid { A with nzval := nz1 } ub1
  have hlen : St.SameLen { nzval := nz1, ubeta := ub1 } s1 := by
    rcases hs1 with h | ⟨m, h⟩
    · exact hsat.of_ok h
    · exact hsat.of_stop h
  exact update_A_outcome_lengths obj theta2 resid A s1.nzval nz1 s1.ubeta ub1 hlen.1 hlen.2

/-- The no-leakage theorem applied to two different fillings of the buffers of the full
2 x 2 upper triangle. -/
theorem update_A_no_leak_witness :
    (update_A exPair [1, 1] [5] { exUpper with nzval := [7, 7, 7] } [9, 9]).outcome =
        (update_A exPair [1, 1] [5] { exUpper with nzval := [0, 1, 2] } [4, 4]).outcome ∧
      ∀ s1 : St Int,
        (update_A exPair [2, 1] [5] { exUpper with nzval := [7, 7, 7] } [9, 9] = .ok s1 ∨
          ∃ m, update_A exPair [2, 1] [5] { exUpper with nzval := [7, 7, 7] } [9, 9] =
            .stop m s1) →
        (update_A exPair [1, 1] [5] { exUpper with nzval := s1.nzval } s1.ubeta).outcome =
          (update_A exPair [1, 1] [5] { exUpper with nzval := [7, 7, 7] } [9, 9]).outcome :=
  update_A_no_leak exPair [2, 1] [1, 1] [5] exUpper [7, 7, 7] [0, 1, 2] [9, 9] [4, 4] rfl rfl

end NoLeak

/-! ## Where the code departs from the specification -/

section Departures

variable {R : Type} [CommRing R] [DecidableEq R]

/-- **C1** Identity seeding fails on the full 2 x 2 upper triangle.  The object is one the
constructor accepts and `update_A` completes normally; the diagonal slot of column 1 is
`nzval[colptr[2] - 1] = nzval[2]`, and the specification gives it `1 + 3^2 = 10`, yet the
call leaves `9` there: the seed `nzval[ii] = 1.` went to `nzval[1]`, the slot of the
off-diagonal entry. -/
theorem update_A_seed_misses_diagonal :
    RSC.new exPair.rv exPair.xv exPair.lower = .ok exPair ∧
      update_A exPair [1, 1] [5] exUpper [9, 9] =
        .ok { nzval := [5, 7, 9], ubeta := [10, 15] } ∧
      getI exUpper.colptr (1 + 1) = some 3 ∧
      getI ([5, 7, 9] : List Int) (3 - 1) = some 9 ∧
      diagExpected exPair [1, 1] 1 = 10 := by
  decide

/-- **C2** Off-diagonal accumulation fails on the full 2 x 2 upper triangle.  The entry at
row 0 of column 1 is stored at index 1 (`colptr[1] = 1`, `rowval[1] = 0`); the specification
gives it `w[1] * w[0] = 6`, yet the call leaves `7` there, because the identity seed of
column 1 was written to this slot. -/
theorem update_A_offdiagonal_gets_seed :
    RSC.new exPair.rv exPair.xv exPair.lower = .ok exPair ∧
      update_A exPair [1, 1] [5] exUpper [9, 9] =
        .ok { nzval := [5, 7, 9], ubeta := [10, 15] } ∧
      getI exUpper.colptr 1 = some 1 ∧ getI exUpper.colptr (1 + 1) = some 3 ∧
      getI exUpper.rowval 1 = some 0 ∧
      getI ([5, 7, 9] : List Int) 1 = some 7 ∧
      offDiagExpected exPair [1, 1] 0 1 = 6 := by
  decide

/-- **C4** `apply_lambda` is not the transpose of the factor on two 2 x 2 blocks.  With
`theta = [2, 3, 5, 7, 11, 13]` the factor has third column `(0, 0, 7, 11)`, so the
specification gives output entry 2 the value `7 * 100 + 11 * 1000 = 11700`; the code returns
`7 * 100 + 11 * 10000 = 110700`, because `rr` was set to `&dest[k]` (position 3 of `theta`)
and not to `&dest[dpos]` (row 2 of the block). -/
theorem apply_lambda_second_block_reads_wrong_row :
    RSC.new exTwoBlocks.rv exTwoBlocks.xv exTwoBlocks.lower = .ok exTwoBlocks ∧
      apply_lambda exTwoBlocks [2, 3, 5, 7, 11, 13] [1, 10, 100, 1000, 10000, 100000] =
        .ok [32, 50, 110700, 13000, 10000, 100000] ∧
      (List.range 4).map (fun r => factorEntry exTwoBlocks.lower [2, 3, 5, 7, 11, 13] r 2) =
        [0, 0, 7, 11] ∧
      factorTransposeApply exTwoBlocks.lower [2, 3, 5, 7, 11, 13]
        [1, 10, 100, 1000, 10000, 100000] exTwoBlocks.k 2 = 11700 := by
  decide

/-- **C5** A pattern mismatch goes undetected on the diagonal 2 x 2 pattern.  The observation
has `rv(0,0) = 0` and `rv(1,0) = 1`, and column 1 of `A` (indices `[1, 2)`) stores row 1
only, so the entry at row 0 of column 1 is missing; nevertheless `update_A` completes
normally, and the product `w[1] * w[0] = 6` has been added to `nzval[0]`, the diagonal slot
of column 0 (`1 + 2 * 2 + 6 = 11`). -/
theorem update_A_pattern_mismatch_undetected :
    RSC.new exPair.rv exPair.xv exPair.lower = .ok exPair ∧
      exPair.rv.at 0 0 = some 0 ∧ exPair.rv.at 1 0 = some 1 ∧
      getI exDiag.colptr 1 = some 1 ∧ getI exDiag.colptr (1 + 1) = some 2 ∧
      getI exDiag.rowval 1 = some 1 ∧
      lambdaCol exPair [1, 1] 0 = [2, 3] ∧
      update_A exPair [1, 1] [5] exDiag [9, 9] =
        .ok { nzval := [11, 10], ubeta := [10, 15] } := by
  decide

/-- **C6** The identity-seed check is not reached on a matrix whose first column is empty.
The four dimension checks pass and column 0 has no stored row at all
(`colptr[1] - 1 = -1`), so it does not end in row 0; the code reads `rowval[-1]`, which is
undefined behaviour, and the seed error is not what the call is guaranteed to raise. -/
theorem update_A_seed_check_reads_before_rowval :
    RSC.new exSingle.rv exSingle.xv exSingle.lower = .ok exSingle ∧
      ([1] : List Int).length = exSingle.lower.length ∧
      (([5] : List Int).length : Int) = (exSingle.n : Int) ∧
      (([9] : List Int).length : Int) = exSingle.q + exSingle.p ∧
      exEmpty.isDsC = true ∧ exEmpty.nrow = exSingle.q + exSingle.p ∧
      getI exEmpty.colptr (0 + 1) = some 0 ∧
      getI exEmpty.rowval (0 - 1) = none ∧
      update_A exSingle [1] [5] exEmpty [9] = .undefined := by
  decide

end Departures

/-! ## `update_A`: the identity-seed check -/

section SeedCheck

variable {R : Type} [CommRing R] [DecidableEq R]

/-- A seed loop that stops has met a column whose last stored row is not its index. -/
theorem seedLoop_stop_bad (colptr rowval : List Int) (N : Nat) (nzval : List R) :
    (forLoop (seedStep colptr rowval) N nzval).Sat (fun _ => True)
      (fun _ _ => ∃ i, i < N ∧ seedBad colptr rowval i) := by
  refine (forLoop_sat (fun _ (_ : List R) => True)
    (fun _ _ => ∃ i, i < N ∧ seedBad colptr rowval i) _ N nzval trivial ?_)
  intro i nz hi _
  unfold seedStep
  split
  · trivial
  · rename_i cp hcp
    dsimp only
    split
    · trivial
    · rename_i r hr
      split
      · rename_i hne
        exact ⟨i, hi, cp, r, hcp, hr, hne⟩
      · split <;> trivial

/-- When its reads are in range and `nzval` has at least `N` entries, the seed loop over
`N` columns either completes (no column is bad) or stops with the upper-triangle message
(some column is bad). -/
theorem seedLoop_in_range (colptr rowval : List Int) (N : Nat) (nzval : List R)
    (hrange : ∀ i, i < N → seedInRange colptr rowval i) (hlen : N ≤ nzval.length) :
    ((∀ i, i < N → ¬ seedBad colptr rowval i) →
        ∃ nz, forLoop (seedStep colptr rowval) N nzval = .ok nz) ∧
      ((∃ i, i < N ∧ seedBad colptr rowval i) →
        ∃ nz, forLoop (seedStep colptr rowval) N nzval = .stop .notUpper nz) := by
  induction N with
  | zero =>
    refine ⟨fun _ => ⟨nzval, rfl⟩, ?_⟩
    rintro ⟨i, hi, -⟩
    exact absurd hi (Nat.not_lt_zero i)
  | succ M ih =>
    obtain ⟨ihok, ihbad⟩ := ih (fun i hi => hrange i (Nat.lt_succ_of_lt hi))
      (Nat.le_of_succ_le hlen)
    by_cases hprev : ∃ i, i < M ∧ seedBad colptr rowval i
    · obtain ⟨nz, hnz⟩ := ihbad hprev
      refine ⟨fun hall => ?_, fun _ => ⟨nz, by simp [forLoop, hnz, Res.bind]⟩⟩
      obtain ⟨i, hi, hb⟩ := hprev
      exact absurd hb (hall i (Nat.lt_succ_of_lt hi))
    · have hnone : ∀ i, i < M → ¬ seedBad colptr rowval i :=
        fun i hi hb => hprev ⟨i, hi, hb⟩
      obtain ⟨nz1, hnz1⟩ := ihok hnone
      have hl1 : nz1.length = nzval.length :=
        (seedLoop_sat colptr rowval M nzval).of_ok hnz1
      obtain ⟨cp, r, hcp, hr⟩ := hrange M (Nat.lt_succ_self M)
      by_cases hrM : r = (M : Int)
      · have hset : setI nz1 r (1 : R) = some (nz1.set M 1) := by
          rw [hrM]
          exact setI_natCast nz1 M 1 (by omega)
        have hstep : seedStep colptr rowval M nz1 = .ok (nz1.set M 1) := by
          simp [seedStep, hcp, hr, hrM, hset]
          rw [← hrM, hset]
        refine ⟨fun _ => ⟨nz1.set M 1, by simp [forLoop, hnz1, Res.bind, hstep]⟩, ?_⟩
        rintro ⟨i, hi, hb⟩
        rcases Nat.lt_succ_iff_lt_or_eq.mp hi with hlt | heq
        · exact absurd hb (hnone i hlt)
        · subst heq
          obtain ⟨cp', r', hcp', hr', hne⟩ := hb
          rw [hcp] at hcp'
          have := Option.some.inj hcp'
          subst this
          rw [hr] at hr'
          exact absurd (hrM ▸ (Option.some.inj hr').symm ▸ rfl) hne
      · have hstep : seedStep colptr rowval M nz1 = .stop .notUpper nz1 := by
          simp [seedStep, hcp, hr, hrM]
        refine ⟨fun hall => ?_, fun _ => ⟨nz1, by simp [forLoop, hnz1, Res.bind, hstep]⟩⟩
        exact absurd ⟨cp, r, hcp, hr, hrM⟩ (hall M (Nat.lt_succ_self M))

theorem Res.bind_eq_stop {σ : Type} {r : Res σ} {f : σ → Res σ} {m : Msg} {s' : σ} :
    r.bind f = .stop m s' ↔ r = .stop m s' ∨ ∃ s1, r = .ok s1 ∧ f s1 = .stop m s' := by
  cases r <;> simp [Res.bind]

theorem Res.map_eq_stop {σ τ : Type} {r : Res σ} {f : σ → τ} {m : Msg} {t : τ} :
    r.map f = .stop m t ↔ ∃ s, r = .stop m s ∧ f s = t := by
  cases r with
  | ok s => simp [Res.map]
  | stop m1 s1 =>
    simp only [Res.map, Res.stop.injEq]
    constructor
    · rintro ⟨hm, hf⟩
      exact ⟨s1, ⟨hm, rfl⟩, hf⟩
    · rintro ⟨s, ⟨hm, hs⟩, hf⟩
      exact ⟨hm, hs ▸ hf⟩
  | undefined => simp [Res.map]

/-- The identity-seed check of `update_A` after the five dimension and type checks.  If
the call stops with the upper-triangle message, some column `i < q` has a last stored row
different from `i`, and `ubeta` is still all zero (no observation has been processed).
Conversely, when the reads of the seed loop are in range and `nzval` has at least `q`
entries, such a column makes the call stop with that message. -/
theorem update_A_seed_check_in_range (obj : RSC R) (theta resid : List R) (A : dsCMatrix R)
    (ubeta : List R) (h1 : theta.length = obj.lower.length)
    (h2 : (resid.length : Int) = (obj.n : Int)) (h3 : (ubeta.length : Int) = obj.q + obj.p)
    (h4 : A.isDsC = true) (h5 : A.nrow = obj.q + obj.p) :
    (∀ s, update_A obj theta resid A ubeta = .stop .notUpper s →
        (∃ i, i < obj.q.toNat ∧ seedBad A.colptr A.rowval i) ∧
          s.ubeta = List.replicate ubeta.length 0) ∧
      ((∀ i, i < obj.q.toNat → seedInRange A.colptr A.rowval i) →
        obj.q.toNat ≤ A.nzval.length →
        (∃ i, i < obj.q.toNat ∧ seedBad A.colptr A.rowval i) →
        ∃ s, update_A obj theta resid A ubeta = .stop .notUpper s) := by
  rw [update_A_checked obj theta resid A ubeta h1 h2 h3 h4 h5]
  constructor
  · intro s hs
    rw [Res.bind_eq_stop] at hs
    rcases hs with hs | ⟨s1, -, hs⟩
    · rw [Res.map_eq_stop] at hs
      obtain ⟨nz, hnz, hst⟩ := hs
      refine ⟨(seedLoop_stop_bad A.colptr A.rowval obj.q.toNat _).of_stop hnz, ?_⟩
      rw [← hst]
    · have := ((obsLoop_sat obj theta resid A.colptr A.rowval obj.n s1).of_stop hs).1
      rcases this with h | h <;> exact absurd h (by decide)
  · intro hrange hlen hbad
    obtain ⟨nz, hnz⟩ := (seedLoop_in_range A.colptr A.rowval obj.q.toNat
      (List.replicate A.nzval.length (0 : R)) hrange (by simpa using hlen)).2 hbad
    exact ⟨_, by rw [hnz]; rfl⟩

end SeedCheck

/-! ## `update_A`: the checks come before any write -/

section Atomic

variable {R : Type} [CommRing R] [DecidableEq R]

/-- **C14** Atomicity of the dimension checks: whenever `update_A` stops with the message of
one of its dimension or type checks (theta against lower, resid length, ubeta length, matrix
class, matrix order), `A.nzval` and `ubeta` are exactly as they were before the call; the
zeroing starts only after all of these checks have passed. -/
theorem update_A_checks_atomic (obj : RSC R) (theta resid : List R) (A : dsCMatrix R)
    (ubeta : List R) (m : Msg) (s : St R)
    (h : update_A obj theta resid A ubeta = .stop m s)
    (hm : m ∈ [Msg.thetaLower, Msg.residN, Msg.ubetaQP, Msg.notDsC, Msg.sizeA]) :
    s.nzval = A.nzval ∧ s.ubeta = ubeta := by
  by_cases h1 : theta.length = obj.lower.length
  · by_cases h2 : (resid.length : Int) = (obj.n : Int)
    · by_cases h3 : (ubeta.length : Int) = obj.q + obj.p
      · by_cases h4 : A.isDsC = true
        · by_cases h5 : A.nrow = obj.q + obj.p
          · have := ((update_A_sat_checked obj theta resid A ubeta h1 h2 h3 h4 h5).of_stop h).1
            rcases this with e | e | e <;> subst e <;> exact absurd hm (by decide)
          · simp [update_A, h1, h2, h3, h4, h5] at h
            rw [← h.2]
            exact ⟨rfl, rfl⟩
        · simp [update_A, h1, h2, h3, h4] at h
          rw [← h.2]
          exact ⟨rfl, rfl⟩
      · simp [update_A, h1, h2, h3] at h
        rw [← h.2]
        exact ⟨rfl, rfl⟩
    · simp [update_A, h1, h2] at h
      rw [← h.2]
      exact ⟨rfl, rfl⟩
  · simp [update_A, h1] at h
    rw [← h.2]
    exact ⟨rfl, rfl⟩

/-- The atomicity theorem applied to a call whose `resid` has the wrong length. -/
theorem update_A_checks_atomic_witness :
    update_A exPair [1, 1] [5, 6] exUpper [9, 9] =
        .stop .residN { nzval := [7, 7, 7], ubeta := [9, 9] } ∧
      ([7, 7, 7] : List Int) = exUpper.nzval ∧ ([9, 9] : List Int) = [9, 9] :=
  ⟨by decide,
    update_A_checks_atomic exPair [1, 1] [5, 6] exUpper [9, 9] .residN
      { nzval := [7, 7, 7], ubeta := [9, 9] } (by decide) (by decide)⟩

end Atomic

/-! ## Later departures: the quadratic form, the constructor, the reads of `rv` -/

section Departures2

variable {R : Type} [CommRing R] [DecidableEq R]

/-- **C11** Positive semi-definiteness fails on the full 2 x 2 upper triangle.  `theta` is
`[1, 1]` (non-negative at both diagonal positions) and `update_A` completes normally with
`nzval = [5, 7, 9]`; the mirrored matrix has rows `(5, 7)` and `(7, 9)`, and for
`v = (7, -5)` the quadratic form is `-20`.  The identity seed of column 1 went to the
off-diagonal slot, which is what lets the off-diagonal outweigh the diagonal. -/
theorem update_A_not_positive_semidefinite :
    RSC.new exPair.rv exPair.xv exPair.lower = .ok exPair ∧
      update_A exPair [1, 1] [5] exUpper [9, 9] =
        .ok { nzval := [5, 7, 9], ubeta := [10, 15] } ∧
      (List.range 2).map (fun r => (List.range 2).map (fun c =>
        mirrored exUpper.colptr exUpper.rowval ([5, 7, 9] : List Int) r c)) =
        [[5, 7], [7, 9]] ∧
      quadForm exUpper.colptr exUpper.rowval ([5, 7, 9] : List Int) 2 [7, -5] = -20 ∧
      ¬ (0 ≤ quadForm exUpper.colptr exUpper.rowval ([5, 7, 9] : List Int) 2 [7, -5]) := by
  decide

/-- **C15** `update_A` reads `rv` outside the rows of the observation.  The object is one the
constructor accepts, with `k = 1` row in `rv` and `kpp = 2`; the data of `rv` has exactly
`k * n = 2` entries.  For observation 0 the loop over `i < kpp` reads `rv(1, 0)`, which is the
entry `rv(0, 1)` of the next observation; for observation 1 it reads `rv(1, 1)`, which lies
past the end of `rv`, and the call ends in undefined behaviour. -/
theorem update_A_reads_rv_beyond_its_rows :
    RSC.new exFixed.rv exFixed.xv exFixed.lower = .ok exFixed ∧
      exFixed.rv.data.length = exFixed.k * exFixed.n ∧
      exFixed.rv.at 1 0 = exFixed.rv.at 0 1 ∧ exFixed.rv.at 1 0 = some 0 ∧
      obsStep exFixed [1, 0] [1, 1] exDiag.colptr exDiag.rowval 0
          { nzval := [1, 0], ubeta := [0, 0] } =
        .ok { nzval := [20, 0], ubeta := [5, 0] } ∧
      exFixed.rv.at 1 1 = none ∧
      update_A exFixed [1, 0] [1, 1] exDiag [9, 9] = .undefined := by
  decide

/-- The constructor accepts a `lower` with one zero entry although `rv` has two rows: both
entries of `lower` are finite, and finite entries are what the constructor counts. -/
theorem RSC_new_accepts_nonzero_finite_marker :
    RSC.new exFiniteMarker.rv exFiniteMarker.xv exFiniteMarker.lower = .ok exFiniteMarker ∧
      exFiniteMarker.lower.countP (fun x => decide (x = some 0)) = 1 ∧
      exFiniteMarker.k = 2 := by
  decide

/-- **C13** (amended) Construction enforces the marker invariant on the finite entries of
`lower`: the constructor stops whenever the number of finite entries of `lower` differs from
`k`, the row count of `rv`; so every constructed object has exactly `k` finite entries in
`lower`, and exactly `k` block-start (zero) positions when every finite entry of `lower` is
zero. -/
theorem RSC_new_counts_finite (rv : RMatrix Int) (xv : RMatrix R) (lower : List (Option R)) :
    (rv.data ≠ [] → lower.countP R_finite ≠ rv.nrow →
        ∃ m obj, RSC.new rv xv lower = .stop m obj ∧ (m = .rvXv ∨ m = .rvLower)) ∧
      (∀ obj, RSC.new rv xv lower = .ok obj →
        obj.k = rv.nrow ∧ lower.countP R_finite = obj.k ∧
          ((∀ x ∈ lower, R_finite x = true → x = some 0) →
            lower.countP (fun x => decide (x = some 0)) = obj.k)) := by
  constructor
  · intro hne hcount
    cases hd : rv.data with
    | nil => exact absurd hd hne
    | cons x xs =>
      simp only [RSC.new, hd, maxElement, minElement]
      split
      · exact ⟨_, _, rfl, Or.inl rfl⟩
      · rw [if_pos (fun e => hcount e.symm)]
        exact ⟨_, _, rfl, Or.inr rfl⟩
  · intro obj h
    cases hd : rv.data with
    | nil => simp [RSC.new, hd, maxElement, minElement] at h
    | cons x xs =>
      simp only [RSC.new, hd, maxElement, minElement] at h
      split at h
      · exact absurd h (by simp)
      · split at h
        · exact absurd h (by simp)
        · rename_i hk
          split at h
          · exact absurd h (by simp)
          · simp only [Res.ok.injEq] at h
            subst h
            have hk' : rv.nrow = lower.countP R_finite := by simpa using hk
            refine ⟨rfl, hk'.symm, fun hall => ?_⟩
            rw [hk']
            apply List.countP_congr
            intro x hx
            constructor
            · intro hz
              simp only [decide_eq_true_eq] at hz
              subst hz
              rfl
            · intro hf
              simp only [decide_eq_true_eq]
              exact hall x hx hf

end Departures2

/-! ## `update_A`: `A` is independent of `resid` -/

section ResidIndependence

variable {R : Type} [CommRing R] [DecidableEq R]

theorem Res.Rel.rel_bind {σ τ : Type} {r r' : σ → τ → Prop} {a : Res σ} {b : Res τ}
    {f : σ → Res σ} {g : τ → Res τ} (h : Res.Rel r a b)
    (hfg : ∀ s t, r s t → Res.Rel r' (f s) (g t))
    (hstop : ∀ s t, r s t → r' s t) : Res.Rel r' (a.bind f) (b.bind g) := by
  cases a <;> cases b <;> simp only [Res.Rel] at h
  · exact hfg _ _ h
  · exact ⟨h.1, hstop _ _ h.2⟩
  · trivial

theorem Res.Rel.rel_map {σ τ σ' τ' : Type} {r : σ → τ → Prop} {r' : σ' → τ' → Prop}
    {a : Res σ} {b : Res τ} {f : σ → σ'} {g : τ → τ'} (h : Res.Rel r a b)
    (hfg : ∀ s t, r s t → r' (f s) (g t)) : Res.Rel r' (a.map f) (b.map g) := by
  cases a <;> cases b <;> simp only [Res.Rel] at h
  · exact hfg _ _ h
  · exact ⟨h.1, hfg _ _ h.2⟩
  · trivial

theorem Res.Rel.rel_mono {σ τ : Type} {r r' : σ → τ → Prop} {a : Res σ} {b : Res τ}
    (h : Res.Rel r a b) (hr : ∀ s t, r s t → r' s t) : Res.Rel r' a b := by
  cases a <;> cases b <;> simp only [Res.Rel] at h
  · exact hr _ _ h
  · exact ⟨h.1, hr _ _ h.2⟩
  · trivial

theorem Res.Rel.refl {σ : Type} (a : Res σ) : Res.Rel (fun s t : σ => s = t) a a := by
  cases a
  · rfl
  · exact ⟨rfl, rfl⟩
  · trivial

/-- Relational rule for two upward loops run side by side. -/
theorem forLoop_rel {σ τ : Type} (r : σ → τ → Prop) (b1 : Nat → σ → Res σ)
    (b2 : Nat → τ → Res τ) (hstep : ∀ i s t, r s t → Res.Rel r (b1 i s) (b2 i t))
    (N : Nat) (s : σ) (t : τ) (h : r s t) :
    Res.Rel r (forLoop b1 N s) (forLoop b2 N t) := by
  induction N with
  | zero => exact h
  | succ M ih => exact ih.rel_bind (fun s t hst => hstep M s t hst) (fun _ _ hst => hst)

theorem getI_of_lt {α : Type} {xs : List α} {i : Int} (h0 : 0 ≤ i) (h : i.toNat < xs.length) :
    getI xs i = some xs[i.toNat] := by
  rw [getI_eq_some]
  exact ⟨h0, List.getElem?_eq_getElem h⟩

theorem getI_of_not_lt {α : Type} {xs : List α} {i : Int} (h : ¬ (0 ≤ i ∧ i.toNat < xs.length)) :
    getI xs i = none := by
  cases hg : getI xs i with
  | none => rfl
  | some a =>
    rw [getI_eq_some] at hg
    have hlt : i.toNat < xs.length := by
      rcases Nat.lt_or_ge i.toNat xs.length with h1 | h1
      · exact h1
      · simp [List.getElem?_eq_none h1] at hg
    exact absurd ⟨hg.1, hlt⟩ h

theorem setI_of_lt {α : Type} {xs : List α} {i : Int} (v : α) (h0 : 0 ≤ i)
    (h : i.toNat < xs.length) : setI xs i v = some (xs.set i.toNat v) := by
  rw [setI_eq_some]
  exact ⟨h0, h, rfl⟩

/-- Whether a `ubeta` step completes depends on `ubeta` through its length only, and not
on `rj`. -/
theorem ubetaStep_rel (obj : RSC R) (j : Nat) (rj1 rj2 : R) (w : List R) (i : Nat)
    (ub1 ub2 : List R) (h : ub1.length = ub2.length) :
    Res.Rel (fun a b : List R => a.length = b.length)
      (ubetaStep obj j rj1 w i ub1) (ubetaStep obj j rj2 w i ub2) := by
  unfold ubetaStep
  cases obj.rv.at i j with
  | none => trivial
  | some c =>
    cases w[i]? with
    | none => trivial
    | some wi =>
      by_cases hc : 0 ≤ c ∧ c.toNat < ub1.length
      · have hc2 : c.toNat < ub2.length := h ▸ hc.2
        simp only [getI_of_lt hc.1 hc.2, getI_of_lt hc.1 hc2, setI_of_lt _ hc.1 hc.2,
          setI_of_lt _ hc.1 hc2]
        simp [Res.Rel, h]
      · have hc2 : ¬ (0 ≤ c ∧ c.toNat < ub2.length) := h ▸ hc
        simp only [getI_of_not_lt hc, getI_of_not_lt hc2]
        trivial

/-- Two observation steps that differ in `resid` only, started on states with the same
`nzval` and `ubeta` of the same length, end alike with the same `nzval`. -/
theorem obsStep_rel (obj : RSC R) (theta resid1 resid2 : List R) (colptr rowval : List Int)
    (hlen : resid1.length = resid2.length) (j : Nat) (s t : St R)
    (h : s.nzval = t.nzval ∧ s.ubeta.length = t.ubeta.length) :
    Res.Rel (fun a b : St R => a.nzval = b.nzval ∧ a.ubeta.length = b.ubeta.length)
      (obsStep obj theta resid1 colptr rowval j s)
      (obsStep obj theta resid2 colptr rowval j t) := by
  unfold obsStep
  by_cases hj : j < resid1.length
  · have hj2 : j < resid2.length := hlen ▸ hj
    rw [List.getElem?_eq_getElem hj, List.getElem?_eq_getElem hj2]
    cases xvCol obj j with
    | none => trivial
    | some w0 =>
      dsimp only
      cases apply_lambda obj theta w0 with
      | ok w =>
        dsimp only
        refine Res.Rel.rel_bind (r := fun a b : St R => a.nzval = b.nzval ∧
          a.ubeta.length = b.ubeta.length) ?_ ?_ (fun _ _ hst => hst)
        · exact (forLoop_rel (fun a b : List R => a.length = b.length) _ _
            (fun i a b hab => ubetaStep_rel obj j _ _ w i a b hab) obj.kpp _ _ h.2).rel_map
            (fun a b hab => ⟨h.1, hab⟩)
        · intro s1 t1 hst
          rw [hst.1]
          exact (Res.Rel.refl _).rel_map (fun a b hab => ⟨hab, hst.2⟩)
      | stop m w => trivial
      | undefined => trivial
  · have hj2 : ¬ j < resid2.length := hlen ▸ hj
    rw [List.getElem?_eq_none (Nat.le_of_not_lt hj), List.getElem?_eq_none (Nat.le_of_not_lt hj2)]
    trivial

theorem Res.Rel.outcome_map_eq {σ τ : Type} {a b : Res σ} {f : σ → τ}
    (h : Res.Rel (fun s t => f s = f t) a b) : (a.map f).outcome = (b.map f).outcome := by
  cases a <;> cases b <;> simp only [Res.Rel] at h
  · simp [Res.map, Res.outcome, h]
  · simp [Res.map, Res.outcome, h.1]
  · rfl

/-- **C18** `A` does not depend on `resid`: for any two residual vectors of the same length
(in particular two of length `n`), `update_A` called with all other inputs the same either
stops with the same message in both runs, is undefined in both, or completes in both with
the same final `A.nzval`; the residual values reach `ubeta` only. -/
theorem update_A_nzval_independent_of_resid (obj : RSC R) (theta resid1 resid2 : List R)
    (A : dsCMatrix R) (ubeta : List R) (hlen : resid1.length = resid2.length) :
    ((update_A obj theta resid1 A ubeta).map St.nzval).outcome =
      ((update_A obj theta resid2 A ubeta).map St.nzval).outcome := by
  by_cases h1 : theta.length = obj.lower.length
  · by_cases h2 : (resid1.length : Int) = (obj.n : Int)
    · have h2' : (resid2.length : Int) = (obj.n : Int) := by rw [← hlen]; exact h2
      by_cases h3 : (ubeta.length : Int) = obj.q + obj.p
      · by_cases h4 : A.isDsC = true
        · by_cases h5 : A.nrow = obj.q + obj.p
          · rw [update_A_checked obj theta resid1 A ubeta h1 h2 h3 h4 h5,
              update_A_checked obj theta resid2 A ubeta h1 h2' h3 h4 h5]
            apply Res.Rel.outcome_map_eq
            refine Res.Rel.rel_bind (r := fun a b : St R => a.nzval = b.nzval ∧
              a.ubeta.length = b.ubeta.length) ?_ ?_ (fun _ _ hst => hst.1)
            · exact (Res.Rel.refl _).rel_map (fun a b hab => ⟨hab, rfl⟩)
            · intro s t hst
              exact (forLoop_rel _ _ _ (fun j a b hab =>
                  obsStep_rel obj theta resid1 resid2 A.colptr A.rowval hlen j a b hab)
                  obj.n s t hst).rel_mono (fun _ _ hab => hab.1)
          · simp [update_A, h1, h2, h2', h3, h4, h5, Res.map, Res.outcome]
        · simp [update_A, h1, h2, h2', h3, h4, Res.map, Res.outcome]
      · simp [update_A, h1, h2, h2', h3, Res.map, Res.outcome]
    · have h2' : ¬ (resid2.length : Int) = (obj.n : Int) := by rw [← hlen]; exact h2
      simp [update_A, h1, h2, h2', Res.map, Res.outcome]
  · simp [update_A, h1, Res.map, Res.outcome]

/-- The independence theorem applied to the residual vectors `[5]` and `[6]` on the full
2 x 2 upper triangle. -/
theorem update_A_nzval_independent_of_resid_witness :
    ((update_A exPair [1, 1] [5] exUpper [9, 9]).map St.nzval).outcome = .ok [5, 7, 9] ∧
      ((update_A exPair [1, 1] [5] exUpper [9, 9]).map St.nzval).outcome =
        ((update_A exPair [1, 1] [6] exUpper [9, 9]).map St.nzval).outcome :=
  ⟨by decide,
    update_A_nzval_independent_of_resid exPair [1, 1] [5] [6] exUpper [9, 9] rfl⟩

end ResidIndependence

/-! ## `update_A`: the diagonal check inside the scan -/

section DiagonalCheck

variable {R : Type} [CommRing R] [DecidableEq R]

theorem foldl_max_ge (xs : List Int) (a : Int) :
    a ≤ xs.foldl max a ∧ ∀ x ∈ xs, x ≤ xs.foldl max a := by
  induction xs generalizing a with
  | nil => simp
  | cons y ys ih =>
    simp only [List.foldl_cons, List.mem_cons, forall_eq_or_imp]
    obtain ⟨h1, h2⟩ := ih (max a y)
    exact ⟨le_trans (le_max_left a y) h1, le_trans (le_max_right a y) h1, h2⟩

theorem foldl_min_le (xs : List Int) (a : Int) :
    xs.foldl min a ≤ a ∧ ∀ x ∈ xs, xs.foldl min a ≤ x := by
  induction xs generalizing a with
  | nil => simp
  | cons y ys ih =>
    simp only [List.foldl_cons, List.mem_cons, forall_eq_or_imp]
    obtain ⟨h1, h2⟩ := ih (min a y)
    exact ⟨le_trans h1 (min_le_left a y), le_trans h1 (min_le_right a y), h2⟩

theorem maxElement_ge {xs : List Int} {mx : Int} (h : maxElement xs = some mx) :
    ∀ x ∈ xs, x ≤ mx := by
  cases xs with
  | nil => simp [maxElement] at h
  | cons y ys =>
    simp only [maxElement, Option.some.injEq] at h
    subst h
    intro x hx
    rcases List.mem_cons.mp hx with e | e
    · subst e; exact (foldl_max_ge ys x).1
    · exact (foldl_max_ge ys y).2 x e

theorem minElement_le {xs : List Int} {mn : Int} (h : minElement xs = some mn) :
    ∀ x ∈ xs, mn ≤ x := by
  cases xs with
  | nil => simp [minElement] at h
  | cons y ys =>
    simp only [minElement, Option.some.injEq] at h
    subst h
    intro x hx
    rcases List.mem_cons.mp hx with e | e
    · subst e; exact (foldl_min_le ys x).1
    · exact (foldl_min_le ys y).2 x e

/-- What the constructor guarantees: the members are the dimensions of the matrices, `p` is
not negative, `lower` has `k` finite entries, and every entry of `rv` lies in `[0, q)`. -/
theorem RSC_new_ok {rv : RMatrix Int} {xv : RMatrix R} {lower : List (Option R)} {obj : RSC R}
    (h : RSC.new rv xv lower = .ok obj) :
    obj.rv = rv ∧ obj.xv = xv ∧ obj.lower = lower ∧ obj.k = rv.nrow ∧ obj.kpp = xv.nrow ∧
      obj.n = xv.ncol ∧ rv.ncol = xv.ncol ∧ obj.p = (xv.nrow : Int) - (rv.nrow : Int) ∧
      0 ≤ obj.p ∧ rv.data ≠ [] ∧ ∀ x ∈ rv.data, 0 ≤ x ∧ x < obj.q := by
  unfold RSC.new at h
  split at h
  · rename_i mx mn hmx hmn
    dsimp only at h
    split at h
    · exact absurd h (by simp)
    · rename_i hdim
      split at h
      · exact absurd h (by simp)
      · split at h
        · exact absurd h (by simp)
        · rename_i hmin
          simp only [Res.ok.injEq] at h
          subst h
          have hmn0 : mn = 0 := by simpa using hmin
          have hd : rv.ncol = xv.ncol ∧ ¬ ((xv.nrow : Int) - (rv.nrow : Int) < 0) := by
            simpa [not_or] using hdim
          refine ⟨rfl, rfl, rfl, rfl, rfl, rfl, hd.1, rfl, by simpa using hd.2, ?_, ?_⟩
          · intro e
            rw [e] at hmx
            simp [maxElement] at hmx
          · intro x hx
            have h1 := maxElement_ge hmx x hx
            have h2 := minElement_le hmn x hx
            constructor
            · omega
            · show x < mx + 1
              omega
  · exact absurd h (by simp)

theorem RMatrix.at_mem {α : Type} {M : RMatrix α} {i j : Nat} {a : α}
    (h : M.at i j = some a) : a ∈ M.data := by
  unfold RMatrix.at at h
  exact List.getElem?_mem h

/-- A seed loop that completes has verified that each of its columns ends in its own
row. -/
theorem seedLoop_ok_good (colptr rowval : List Int) (N : Nat) (nzval : List R) :
    (forLoop (seedStep colptr rowval) N nzval).Sat
      (fun _ => ∀ i, i < N → seedGood colptr rowval i) (fun _ _ => True) := by
  refine forLoop_sat (fun (M : Nat) (_ : List R) => ∀ i, i < M → seedGood colptr rowval i)
    (fun _ _ => True) _ N nzval (fun i hi => absurd hi (Nat.not_lt_zero i)) ?_
  intro M nz _ hprev
  unfold seedStep
  split
  · trivial
  · rename_i cp hcp
    dsimp only
    split
    · trivial
    · rename_i r hr
      split
      · trivial
      · rename_i hne
        have hrM : r = (M : Int) := by simpa using hne
        split
        · intro i hi
          rcases Nat.lt_succ_iff_lt_or_eq.mp hi with hlt | heq
          · exact hprev i hlt
          · subst heq
            exact ⟨cp, hcp, hrM ▸ hr⟩
        · trivial

/-- When the entries of `rv` lie in `[0, q)` and every column below `q` ends in its own
row, a scan step can only stop with the pattern-mismatch message. -/
theorem scanStep_stop_mismatch (obj : RSC R) (colptr rowval : List Int) (j : Nat)
    (w : List R) (i : Nat) (nzval : List R)
    (hrv : ∀ x ∈ obj.rv.data, 0 ≤ x ∧ x < obj.q)
    (hgood : ∀ c, c < obj.q.toNat → seedGood colptr rowval c) :
    (scanStep obj colptr rowval j w i nzval).Sat (fun _ => True)
      (fun m _ => m = .patternMismatch) := by
  unfold scanStep
  split
  · trivial
  · rename_i ii hii
    obtain ⟨h0, hq⟩ := hrv ii (RMatrix.at_mem hii)
    obtain ⟨cp, hcp, hrow⟩ := hgood ii.toNat (by omega)
    have hcp1 : getI colptr (ii + 1) = some cp := by
      rw [getI_eq_some]
      refine ⟨by omega, ?_⟩
      have : (ii + 1).toNat = ii.toNat + 1 := by omega
      rw [this]
      exact hcp
    have hcast : ((ii.toNat : Nat) : Int) = ii := Int.toNat_of_nonneg h0
    rw [hcast] at hrow
    split
    · rename_i cpi cp1 hcpi hcp1'
      rw [hcp1] at hcp1'
      have hcc : cp = cp1 := Option.some.inj hcp1'
      subst hcc
      dsimp only
      rw [hrow]
      dsimp only
      rw [if_neg (by simp)]
      split
      · split
        · exact (offLoop_sat obj rowval j w _ _ i _ _).mono (fun _ _ => trivial)
            (fun m _ hs => hs.1)
        · trivial
      · trivial
    · trivial

/-- Under the same conditions an observation step can only stop with the pattern-mismatch
message. -/
theorem obsStep_stop_mismatch (obj : RSC R) (theta resid : List R) (colptr rowval : List Int)
    (j : Nat) (s : St R)
    (hrv : ∀ x ∈ obj.rv.data, 0 ≤ x ∧ x < obj.q)
    (hgood : ∀ c, c < obj.q.toNat → seedGood colptr rowval c) :
    (obsStep obj theta resid colptr rowval j s).Sat (fun _ => True)
      (fun m _ => m = .patternMismatch) := by
  unfold obsStep
  split
  · split
    · rename_i rj w0 _ _ _ w _
      refine Res.Sat.bind (P := fun _ => True) ?_ ?_
      · apply Res.Sat.map
        exact (forLoop_sat (fun _ (_ : List R) => True) (fun _ _ => False)
          (ubetaStep obj j rj w) obj.kpp s.ubeta trivial
          (fun i ub _ _ => (ubetaStep_sat obj j rj w i ub).mono (fun _ _ => trivial)
            (fun _ _ hs => hs))).mono (fun _ _ => trivial) (fun _ _ hs => hs.elim)
      · intro s1 _
        apply Res.Sat.map
        exact downLoop_sat (fun _ (_ : List R) => True) (fun m _ => m = .patternMismatch)
          (scanStep obj colptr rowval j w) obj.kpp s1.nzval trivial
          (fun i nz _ _ => scanStep_stop_mismatch obj colptr rowval j w i nz hrv hgood)
    · trivial
  · trivial

/-- **C17** The in-scan diagonal check cannot fire: for every object the constructor
returns, no call of `update_A` stops with the message "u is not upper triangular".  Once
the identity-seed loop over the columns `[0, q)` has completed, every in-range read
`rv(i,j)` yields a column `ii` with `0 <= ii < q` whose last stored row, at position
`colptr[ii + 1] - 1`, the seed loop has already verified to be `ii`. -/
theorem update_A_diagonal_check_never_fires (rv : RMatrix Int) (xv : RMatrix R)
    (lower : List (Option R)) (obj : RSC R) (hnew : RSC.new rv xv lower = .ok obj)
    (theta resid : List R) (A : dsCMatrix R) (ubeta : List R) :
    (∀ m s, update_A obj theta resid A ubeta = .stop m s → m ≠ .uNotUpper) ∧
      (∀ nz, forLoop (seedStep A.colptr A.rowval) obj.q.toNat
            (List.replicate A.nzval.length (0 : R)) = .ok nz →
        ∀ i j ii, obj.rv.at i j = some ii →
          0 ≤ ii ∧ ii < obj.q ∧
            ∃ cp, getI A.colptr (ii + 1) = some cp ∧ getI A.rowval (cp - 1) = some ii) := by
  obtain ⟨hrv0, -, -, -, -, -, -, -, -, -, hrv⟩ := RSC_new_ok hnew
  rw [← hrv0] at hrv
  constructor
  · intro m s h
    by_cases h1 : theta.length = obj.lower.length
    · by_cases h2 : (resid.length : Int) = (obj.n : Int)
      · by_cases h3 : (ubeta.length : Int) = obj.q + obj.p
        · by_cases h4 : A.isDsC = true
          · by_cases h5 : A.nrow = obj.q + obj.p
            · rw [update_A_checked obj theta resid A ubeta h1 h2 h3 h4 h5,
                Res.bind_eq_stop] at h
              rcases h with h | ⟨s1, hs1, h⟩
              · rw [Res.map_eq_stop] at h
                obtain ⟨nz, hnz, -⟩ := h
                have := ((seedLoop_sat A.colptr A.rowval obj.q.toNat _).of_stop hnz).1
                rw [this]
                decide
              · rw [Res.map_eq_ok] at hs1
                obtain ⟨nz, hnz, -⟩ := hs1
                have hgood := (seedLoop_ok_good A.colptr A.rowval obj.q.toNat _).of_ok hnz
                have hm := (forLoop_sat (fun _ (_ : St R) => True)
                  (fun m _ => m = .patternMismatch)
                  (obsStep obj theta resid A.colptr A.rowval) obj.n s1 trivial
                  (fun j t _ _ => obsStep_stop_mismatch obj theta resid A.colptr A.rowval j t
                    hrv hgood)).of_stop h
                rw [hm]
                decide
            · simp [update_A, h1, h2, h3, h4, h5] at h
              rw [← h.1]; decide
          · simp [update_A, h1, h2, h3, h4] at h
            rw [← h.1]; decide
        · simp [update_A, h1, h2, h3] at h
          rw [← h.1]; decide
      · simp [update_A, h1, h2] at h
        rw [← h.1]; decide
    · simp [update_A, h1] at h
      rw [← h.1]; decide
  · intro nz hnz i j ii hii
    have hgood := (seedLoop_ok_good A.colptr A.rowval obj.q.toNat _).of_ok hnz
    obtain ⟨h0, hq⟩ := hrv ii (RMatrix.at_mem hii)
    obtain ⟨cp, hcp, hrow⟩ := hgood ii.toNat (by omega)
    refine ⟨h0, hq, cp, ?_, ?_⟩
    · rw [getI_eq_some]
      refine ⟨by omega, ?_⟩
      have : (ii + 1).toNat = ii.toNat + 1 := by omega
      rw [this]
      exact hcp
    · rw [Int.toNat_of_nonneg h0] at hrow
      exact hrow

/-- The theorem applied to a call that does stop, with the pattern-mismatch message. -/
theorem update_A_diagonal_check_never_fires_witness :
    RSC.new exShift.rv exShift.xv exShift.lower = .ok exShift ∧
      update_A exShift [1, 1] [1, 1] exGap [0, 0, 0] =
        .stop .patternMismatch { nzval := [5, 7, 10, 0, 49], ubeta := [2, 8, 7] } ∧
      Msg.patternMismatch ≠ Msg.uNotUpper :=
  ⟨by decide, by decide,
    (update_A_diagonal_check_never_fires exShift.rv exShift.xv exShift.lower exShift
      (by decide) [1, 1] [1, 1] exGap [0, 0, 0]).1 .patternMismatch
      { nzval := [5, 7, 10, 0, 49], ubeta := [2, 8, 7] } (by decide)⟩

end DiagonalCheck

/-! ## `update_A`: the backward row walk -/

section Walk

variable {R : Type} [CommRing R] [DecidableEq R]

theorem Res.Safe.safe_bind {σ : Type} {P P' : σ → Prop} {r : Res σ} {f : σ → Res σ}
    (h : r.Safe P) (hf : ∀ s, P s → (f s).Safe P') : (r.bind f).Safe P' := by
  cases r with
  | ok s => exact hf s h
  | stop m s => trivial
  | undefined => exact h

theorem Res.Safe.ne_undefined {σ : Type} {P : σ → Prop} {r : Res σ} (h : r.Safe P) :
    r ≠ .undefined := by
  intro e
  rw [e] at h
  exact h

/-- Safety rule for the downward loop. -/
theorem downLoop_safe {σ : Type} (P : σ → Prop) (body : Nat → σ → Res σ) (N : Nat) (s0 : σ)
    (h0 : P s0) (hstep : ∀ i s, i < N → P s → (body i s).Safe P) :
    (downLoop body N s0).Safe P := by
  induction N generalizing s0 with
  | zero => exact h0
  | succ M ih =>
    exact (hstep M s0 (Nat.lt_succ_self M) h0).safe_bind
      (fun s hs => ih s hs (fun i s hi hp => hstep i s (Nat.lt_succ_of_lt hi) hp))

/-- In a well-formed pattern with at least one random-effect column, position 0 of `rowval`
holds row 0. -/
theorem UpperPattern.rowval_zero {colptr rowval : List Int} {q : Int}
    (hpat : UpperPattern colptr rowval q) (hq : 0 < q) : rowval[0]? = some 0 := by
  obtain ⟨cp, hcp, hlast⟩ := hpat.column_ends 0 (by simpa using hq)
  have hlast0 := (getI_eq_some.mp hlast).1
  obtain ⟨r0, hr0, hr0nn⟩ := hpat.rows_nonneg 0 0 cp hpat.colptr_zero hcp 0 (le_refl 0)
    (by omega)
  have hr0' : rowval[0]? = some r0 := by
    have := (getI_eq_some.mp hr0).2
    simpa using this
  by_cases hone : cp - 1 = 0
  · rw [hone] at hlast
    rw [hr0] at hlast
    have : r0 = 0 := by simpa using hlast
    rw [hr0', this]
  · have hlt := hpat.rows_ascending 0 0 cp hpat.colptr_zero hcp 0 (cp - 1) (le_refl 0)
      (by omega) (by omega) r0 _ hr0 hlast
    simp at hlt
    omega

/-- The walk started inside `rowval` halts at or before position 0 when position 0 holds a
row that is not greater than the row looked for. -/
theorem walkUp_some (rowval : List Int) (ii1 r0 : Int) (h0 : rowval[0]? = some r0)
    (hle : r0 ≤ ii1) (n : Nat) (hn : n < rowval.length) :
    ∃ m, walkUp rowval ii1 n = some m ∧ m ≤ n ∧ ∃ r, rowval[m]? = some r ∧ r ≤ ii1 := by
  induction n with
  | zero =>
    refine ⟨0, ?_, le_refl 0, r0, h0, hle⟩
    simp only [walkUp, h0]
    rw [if_neg (by omega)]
  | succ k ih =>
    obtain ⟨m, hm, hmk, hr⟩ := ih (Nat.lt_of_succ_lt hn)
    have hk : rowval[k + 1]? = some rowval[k + 1] := List.getElem?_eq_getElem hn
    by_cases hgt : rowval[k + 1] > ii1
    · refine ⟨m, ?_, Nat.le_succ_of_le hmk, hr⟩
      simp only [walkUp, hk]
      rw [if_pos hgt]
      exact hm
    · refine ⟨k + 1, ?_, le_refl _, rowval[k + 1], hk, by omega⟩
      simp only [walkUp, hk]
      rw [if_neg hgt]

/-- The walk for a C `int` cursor inside `rowval`. -/
theorem walk_some (rowval : List Int) (ii1 r0 : Int) (h0 : rowval[0]? = some r0)
    (hle : r0 ≤ ii1) (ll : Int) (hll : 0 ≤ ll) (hn : ll.toNat < rowval.length) :
    ∃ ll1, walk rowval ii1 ll = some ll1 ∧ 0 ≤ ll1 ∧ ll1 ≤ ll ∧
      ∃ r, getI rowval ll1 = some r ∧ r ≤ ii1 := by
  obtain ⟨m, hm, hmn, r, hr, hrle⟩ := walkUp_some rowval ii1 r0 h0 hle ll.toNat hn
  refine ⟨(m : Int), ?_, by omega, by omega, r, ?_, hrle⟩
  · unfold walk
    rw [if_neg (by omega), hm]
    rfl
  · rw [getI_natCast]
    exact hr

/-- The off-diagonal loop is free of undefined behaviour when it starts inside `rowval`,
`nzval` has the length of `rowval`, and the rows `l' < l` of `rv` and `w` can be read. -/
theorem offLoop_safe (obj : RSC R) (rowval : List Int) (j : Nat) (w : List R) (cpi : Int)
    (wi : R) (r0 : Int) (h0 : rowval[0]? = some r0)
    (hrv : ∀ x ∈ obj.rv.data, r0 ≤ x) (l : Nat) (ll : Int) (nzval : List R)
    (hll : 0 ≤ ll) (hn : ll.toNat < rowval.length) (hnz : nzval.length = rowval.length)
    (hread : ∀ l', l' < l → ∃ c wl, obj.rv.at l' j = some c ∧ w[l']? = some wl) :
    (offLoop obj rowval j w cpi wi l ll nzval).Safe (fun nz => nz.length = rowval.length) := by
  induction l generalizing ll nzval with
  | zero => exact hnz
  | succ l ih =>
    unfold offLoop
    split
    · exact hnz
    · obtain ⟨ii1, wl, hii1, hwl⟩ := hread l (Nat.lt_succ_self l)
      obtain ⟨ll1, hwalk, hll1, hle, r, hr, -⟩ :=
        walk_some rowval ii1 r0 h0 (hrv ii1 (RMatrix.at_mem hii1)) ll hll hn
      have hn1 : ll1.toNat < rowval.length := by omega
      have hnz1 : ll1.toNat < nzval.length := by omega
      simp only [hii1, hwalk, hr, getI_of_lt hll1 hnz1, hwl]
      split
      · trivial
      · rw [setI_of_lt _ hll1 hnz1]
        exact ih ll1 _ hll1 hn1 (by rw [List.length_set]; exact hnz)
          (fun l' hl' => hread l' (Nat.lt_succ_of_lt hl'))

/-- A scan step is free of undefined behaviour under the conditions of the bounded walk. -/
theorem scanStep_safe (obj : RSC R) (colptr rowval : List Int)
    (hpat : UpperPattern colptr rowval obj.q)
    (hrv : ∀ x ∈ obj.rv.data, 0 ≤ x ∧ x < obj.q) (j : Nat) (w : List R) (i : Nat)
    (nzval : List R) (hnz : nzval.length = rowval.length)
    (hread : ∀ l', l' < i + 1 → ∃ c wl, obj.rv.at l' j = some c ∧ w[l']? = some wl) :
    (scanStep obj colptr rowval j w i nzval).Safe (fun nz => nz.length = rowval.length) := by
  obtain ⟨ii, wi, hii, hwi⟩ := hread i (Nat.lt_succ_self i)
  obtain ⟨hii0, hiiq⟩ := hrv ii (RMatrix.at_mem hii)
  have hq : 0 < obj.q := by omega
  have h0 := hpat.rowval_zero hq
  obtain ⟨cp, hcp, hrow⟩ := hpat.column_ends ii.toNat (by omega)
  have hcast : ((ii.toNat : Nat) : Int) = ii := Int.toNat_of_nonneg hii0
  rw [hcast] at hrow
  have hcp1 : getI colptr (ii + 1) = some cp := by
    rw [getI_eq_some]
    refine ⟨by omega, ?_⟩
    have : (ii + 1).toNat = ii.toNat + 1 := by omega
    rw [this]
    exact hcp
  have hcpi : ∃ cpi, getI colptr ii = some cpi := by
    by_cases hz : ii.toNat = 0
    · refine ⟨0, ?_⟩
      rw [getI_eq_some, hz]
      exact ⟨hii0, hpat.colptr_zero⟩
    · obtain ⟨cq, hcq, -⟩ := hpat.column_ends (ii.toNat - 1) (by omega)
      refine ⟨cq, ?_⟩
      rw [getI_eq_some]
      refine ⟨hii0, ?_⟩
      have : ii.toNat - 1 + 1 = ii.toNat := by omega
      rw [this] at hcq
      exact hcq
  obtain ⟨cpi, hcpi⟩ := hcpi
  obtain ⟨hll0, hllr⟩ := getI_eq_some.mp hrow
  have hlt : (cp - 1).toNat < rowval.length := by
    rcases Nat.lt_or_ge (cp - 1).toNat rowval.length with h | h
    · exact h
    · rw [List.getElem?_eq_none h] at hllr
      exact absurd hllr (by simp)
  have hltnz : (cp - 1).toNat < nzval.length := by omega
  unfold scanStep
  simp only [hii, hcpi, hcp1, hrow, hwi, getI_of_lt hll0 hltnz, setI_of_lt _ hll0 hltnz]
  rw [if_neg (by simp)]
  exact offLoop_safe obj rowval j w cpi wi 0 h0 (fun x hx => (hrv x hx).1) i (cp - 1) _
    hll0 hlt (by rw [List.length_set]; exact hnz)
    (fun l' hl' => hread l' (Nat.lt_succ_of_lt hl'))

/-- A completed `ubeta` loop has read every row `i < N` of `rv` and of `w`. -/
theorem ubetaLoop_ok_reads (obj : RSC R) (j : Nat) (rj : R) (w : List R) (N : Nat)
    (ubeta : List R) :
    (forLoop (ubetaStep obj j rj w) N ubeta).Sat
      (fun _ => ∀ i, i < N → ∃ c wi, obj.rv.at i j = some c ∧ w[i]? = some wi)
      (fun _ _ => True) := by
  refine forLoop_sat
    (fun (M : Nat) (_ : List R) => ∀ i, i < M → ∃ c wi, obj.rv.at i j = some c ∧ w[i]? = some wi)
    (fun _ _ => True) _ N ubeta (fun i hi => absurd hi (Nat.not_lt_zero i)) ?_
  intro M ub _ hprev
  unfold ubetaStep
  split
  · rename_i c wi hc hw
    split
    · split
      · intro i hi
        rcases Nat.lt_succ_iff_lt_or_eq.mp hi with hlt | heq
        · exact hprev i hlt
        · subst heq
          exact ⟨c, wi, hc, hw⟩
      · trivial
    · trivial
  · trivial

/-- **C16** The backward row walk is bounded.  For every well-formed upper-triangle pattern
(`colptr[0] = 0`, `colptr` non-decreasing, row indices not negative and strictly ascending
within each column, every column `i < q` ending in row `i`) and every `rv` with entries in
`[0, q)`: each execution of `while (rowval[ll] > ii1) --ll` that starts inside `rowval` with
a row `ii1` of `rv` halts at a position `ll1` with `0 <= ll1 <= ll` (and `rowval[ll1] <= ii1`);
and whenever an observation of `update_A` reaches its scan on an `nzval` of the length of
`rowval`, the whole scan is free of undefined behaviour: it completes or stops, and never
indexes `rowval` or `nzval` at a negative position, also when the walk leaves the column. -/
theorem update_A_walk_bounded (obj : RSC R) (colptr rowval : List Int)
    (hpat : UpperPattern colptr rowval obj.q)
    (hrv : ∀ x ∈ obj.rv.data, 0 ≤ x ∧ x < obj.q) :
    (∀ ii1 ∈ obj.rv.data, ∀ ll : Int, 0 ≤ ll → ll.toNat < rowval.length →
        ∃ ll1, walk rowval ii1 ll = some ll1 ∧ 0 ≤ ll1 ∧ ll1 ≤ ll ∧
          ∃ r, getI rowval ll1 = some r ∧ r ≤ ii1) ∧
      (∀ (j : Nat) (rj : R) (w ubeta ub nzval : List R),
        nzval.length = rowval.length →
        forLoop (ubetaStep obj j rj w) obj.kpp ubeta = .ok ub →
        downLoop (scanStep obj colptr rowval j w) obj.kpp nzval ≠ .undefined) := by
  constructor
  · intro ii1 hii1 ll hll hn
    obtain ⟨h0, hq⟩ := hrv ii1 hii1
    exact walk_some rowval ii1 0 (hpat.rowval_zero (by omega)) h0 ll hll hn
  · intro j rj w ubeta ub nzval hnz hub
    have hread := (ubetaLoop_ok_reads obj j rj w obj.kpp ubeta).of_ok hub
    have hsafe := downLoop_safe (fun nz : List R => nz.length = rowval.length)
      (scanStep obj colptr rowval j w) obj.kpp nzval hnz
      (fun i nz hi hlen => scanStep_safe obj colptr rowval hpat hrv j w i nz hlen
        (fun l' hl' => hread l' (by omega)))
    exact hsafe.ne_undefined

/-- The full 2 x 2 upper triangle is a well-formed pattern for two random-effect columns. -/
theorem exUpper_pattern : UpperPattern exUpper.colptr exUpper.rowval exPair.q where
  colptr_zero := rfl
  colptr_mono := by
    intro c a b ha hb
    rcases c with _ | _ | c
    · simp [exUpper] at ha hb; omega
    · simp [exUpper] at ha hb; omega
    · simp [exUpper] at hb
  rows_nonneg := by
    intro c a b ha hb idx h1 h2
    rcases c with _ | _ | c
    · simp [exUpper] at ha hb
      have : idx = 0 := by omega
      subst this
      exact ⟨0, by decide, le_refl 0⟩
    · simp [exUpper] at ha hb
      have : idx = 1 ∨ idx = 2 := by omega
      rcases this with e | e <;> subst e
      · exact ⟨0, by decide, le_refl 0⟩
      · exact ⟨1, by decide, by decide⟩
    · simp [exUpper] at hb
  rows_ascending := by
    intro c a b ha hb idx idx' h1 h2 h3 r r' hr hr'
    rcases c with _ | _ | c
    · simp [exUpper] at ha hb; omega
    · simp [exUpper] at ha hb
      have e1 : idx = 1 := by omega
      have e2 : idx' = 2 := by omega
      subst e1 e2
      have hr0 : r = 0 := by
        have : getI exUpper.rowval 1 = some 0 := by decide
        rw [this] at hr
        exact (Option.some.inj hr).symm
      have hr1 : r' = 1 := by
        have : getI exUpper.rowval 2 = some 1 := by decide
        rw [this] at hr'
        exact (Option.some.inj hr').symm
      omega
    · simp [exUpper] at hb
  column_ends := by
    intro i hi
    have hi2 : i < 2 := by
      have : exPair.q = 2 := rfl
      omega
    rcases i with _ | _ | i
    · exact ⟨1, rfl, by decide⟩
    · exact ⟨3, rfl, by decide⟩
    · omega

/-- The bounded-walk theorem applied to the full 2 x 2 upper triangle: the walk for row 0
started at the diagonal slot of column 1 halts inside `rowval`. -/
theorem update_A_walk_bounded_witness :
    walk exUpper.rowval 0 2 = some 1 ∧
      ∃ ll1, walk exUpper.rowval 0 2 = some ll1 ∧ 0 ≤ ll1 ∧ ll1 ≤ 2 ∧
        ∃ r, getI exUpper.rowval ll1 = some r ∧ r ≤ 0 :=
  ⟨by decide,
    (update_A_walk_bounded exPair exUpper.colptr exUpper.rowval exUpper_pattern
      (by decide)).1 0 (by decide) 2 (by decide) (by decide)⟩

end Walk

/-! ## `apply_lambda`: the closed form -/

section ClosedForm

variable {R : Type} [CommRing R] [DecidableEq R]

section Counting

variable (p : Nat → Prop) [DecidablePred p]

/-- The list of the positions below `n` that satisfy `p` has `Nat.count p n` entries, and its
entry `d` is the position `z < n` with `p z` that has exactly `d` such positions below it. -/
theorem filter_range_count (n : Nat) :
    ((List.range n).filter (fun t => decide (p t))).length = Nat.count p n ∧
      ∀ d, d < Nat.count p n →
        ((List.range n).filter (fun t => decide (p t))).getD d 0 < n ∧
          p (((List.range n).filter (fun t => decide (p t))).getD d 0) ∧
          Nat.count p (((List.range n).filter (fun t => decide (p t))).getD d 0) = d := by
  induction n with
  | zero => simp
  | succ n ih =>
    obtain ⟨ihlen, ihget⟩ := ih
    rw [List.range_succ, List.filter_append, Nat.count_succ]
    by_cases hp : p n
    · have hsingle : List.filter (fun t => decide (p t)) [n] = [n] := by simp [hp]
      rw [hsingle, if_pos hp]
      refine ⟨by simp [ihlen], ?_⟩
      intro d hd
      by_cases hlt : d < Nat.count p n
      · rw [List.getD_append _ _ _ _ (by rw [ihlen]; exact hlt)]
        obtain ⟨h1, h2, h3⟩ := ihget d hlt
        exact ⟨Nat.lt_succ_of_lt h1, h2, h3⟩
      · have hd' : d = Nat.count p n := by omega
        have hget : (List.filter (fun t => decide (p t)) (List.range n) ++ [n]).getD d 0 = n := by
          rw [List.getD_append_right _ _ _ _ (by rw [ihlen]; omega), ihlen, hd']
          simp
        rw [hget]
        exact ⟨Nat.lt_succ_self n, hp, hd'.symm⟩
    · have hsingle : List.filter (fun t => decide (p t)) [n] = [] := by simp [hp]
      rw [hsingle, if_neg hp, List.append_nil, Nat.add_zero]
      refine ⟨ihlen, ?_⟩
      intro d hd
      obtain ⟨h1, h2, h3⟩ := ihget d hd
      exact ⟨Nat.lt_succ_of_lt h1, h2, h3⟩

/-- Between two consecutive positions that satisfy `p` lie exactly the positions that do
not satisfy `p` and have `d + 1` such positions below them. -/
theorem between_starts_iff (n d t : Nat) (hd : d < Nat.count p n) (ht : t < n) :
    (¬ p t ∧ Nat.count p t = d + 1) ↔
      (((List.range n).filter (fun t => decide (p t))).getD d 0 < t ∧
        t < ((List.range n).filter (fun t => decide (p t))).getD (d + 1) n) := by
  obtain ⟨hlen, hget⟩ := filter_range_count p n
  obtain ⟨hz1, hz2, hz3⟩ := hget d hd
  generalize hzd : ((List.range n).filter (fun t => decide (p t))).getD d 0 = z at hz1 hz2 hz3
  have hmono := Nat.count_monotone p
  have hzs : Nat.count p (z + 1) = d + 1 := by
    rw [Nat.count_succ, if_pos hz2, hz3]
  by_cases hnext : d + 1 < Nat.count p n
  · obtain ⟨hy1, hy2, hy3⟩ := hget (d + 1) hnext
    have hdef : ((List.range n).filter (fun t => decide (p t))).getD (d + 1) n =
        ((List.range n).filter (fun t => decide (p t))).getD (d + 1) 0 := by
      rw [List.getD_eq_getElem _ _ (by rw [hlen]; exact hnext),
        List.getD_eq_getElem _ _ (by rw [hlen]; exact hnext)]
    rw [hdef]
    generalize ((List.range n).filter (fun t => decide (p t))).getD (d + 1) 0 = y
      at hy1 hy2 hy3
    constructor
    · rintro ⟨hnp, hc⟩
      constructor
      · by_contra hle
        have := hmono (Nat.le_of_not_lt hle)
        omega
      · by_contra hle
        have hyt : y ≤ t := Nat.le_of_not_lt hle
        have hne : y ≠ t := fun e => hnp (e ▸ hy2)
        have hys : Nat.count p (y + 1) = d + 2 := by
          rw [Nat.count_succ, if_pos hy2, hy3]
        have := hmono (show y + 1 ≤ t by omega)
        omega
    · rintro ⟨h1, h2⟩
      have hlo := hmono (show z + 1 ≤ t by omega)
      have hhi := hmono (show t ≤ y by omega)
      refine ⟨fun hpt => ?_, by omega⟩
      have hts : Nat.count p (t + 1) = Nat.count p t + 1 := by
        rw [Nat.count_succ, if_pos hpt]
      have := hmono (show t + 1 ≤ y by omega)
      omega
  · have hdef : ((List.range n).filter (fun t => decide (p t))).getD (d + 1) n = n := by
      rw [List.getD_eq_default _ _ (by rw [hlen]; omega)]
    rw [hdef]
    have hm : Nat.count p n = d + 1 := by omega
    constructor
    · rintro ⟨hnp, hc⟩
      refine ⟨?_, ht⟩
      by_contra hle
      have := hmono (Nat.le_of_not_lt hle)
      omega
    · rintro ⟨h1, -⟩
      have hlo := hmono (show z + 1 ≤ t by omega)
      have hhi := hmono (show t ≤ n by omega)
      refine ⟨fun hpt => ?_, by omega⟩
      have hts : Nat.count p (t + 1) = Nat.count p t + 1 := by
        rw [Nat.count_succ, if_pos hpt]
      have := hmono (show t + 1 ≤ n by omega)
      omega

end Counting

theorem startCount_succ (lower : List (Option R)) (K : Nat) :
    startCount lower (K + 1) = startCount lower K + if blockStart lower K then 1 else 0 :=
  Nat.count_succ _ K

theorem startCount_le (lower : List (Option R)) (K : Nat) : startCount lower K ≤ K :=
  Nat.count_le _

theorem startCount_mono (lower : List (Option R)) {a b : Nat} (h : a ≤ b) :
    startCount lower a ≤ startCount lower b :=
  Nat.count_monotone _ h

theorem offSum_eq_zero (lower : List (Option R)) (theta x : List R) (K d : Nat)
    (h : startCount lower K ≤ d) : offSum lower theta x K d = 0 := by
  unfold offSum
  apply Finset.sum_eq_zero
  intro t ht
  have htK : t < K := Finset.mem_range.mp ht
  have := startCount_mono lower (Nat.le_of_lt htK)
  rw [if_neg]
  rintro ⟨-, hc⟩
  omega

theorem diagCoef_eq_zero (lower : List (Option R)) (theta : List R) (K d : Nat)
    (h : startCount lower K ≤ d) : diagCoef lower theta K d = 0 := by
  unfold diagCoef
  apply Finset.sum_eq_zero
  intro t ht
  have htK : t < K := Finset.mem_range.mp ht
  rw [if_neg]
  rintro ⟨hp, hc⟩
  have h1 := startCount_succ lower t
  rw [if_pos hp] at h1
  have h2 := startCount_mono lower (show t + 1 ≤ K by omega)
  omega

theorem diagCoef_succ (lower : List (Option R)) (theta : List R) (K d : Nat) :
    diagCoef lower theta (K + 1) d = diagCoef lower theta K d +
      (if blockStart lower K ∧ startCount lower K = d then theta.getD K 0 else 0) := by
  unfold diagCoef
  rw [Finset.sum_range_succ]

theorem offSum_succ (lower : List (Option R)) (theta x : List R) (K d : Nat) :
    offSum lower theta x (K + 1) d = offSum lower theta x K d +
      (if ¬ blockStart lower K ∧ startCount lower K = d + 1
        then theta.getD K 0 * x.getD K 0 else 0) := by
  unfold offSum
  rw [Finset.sum_range_succ]

theorem getElem?_getD {α : Type} (xs : List α) (k : Nat) (d : α) (h : k < xs.length) :
    xs[k]? = some (xs.getD k d) := by
  rw [List.getD_eq_getElem _ _ h]
  exact List.getElem?_eq_getElem h

/-- One iteration of `apply_lambda` carries the invariant from `K` to `K + 1`. -/
theorem lambdaStep_inv (lower : List (Option R)) (theta x : List R) (K : Nat)
    (hlow : K < lower.length) (hth : K < theta.length) (hx : K < x.length)
    (h0 : blockStart lower 0) (s : LamSt R) (hs : LambdaInv lower theta x K s) :
    ∃ s', lambdaStep lower theta K s = .ok s' ∧ LambdaInv lower theta x (K + 1) s' := by
  obtain ⟨hlen, hdpos, hrr, hval⟩ := hs
  have hcK := startCount_le lower K
  have hthK : theta[K]? = some (theta.getD K 0) := getElem?_getD theta K 0 hth
  have hlk : lower[K]? = some lower[K] := List.getElem?_eq_getElem hlow
  by_cases hp : blockStart lower K
  · -- a block start: `dest[++dpos] *= theta[k]`
    have hpK : lower[K]? = some (some 0) := hp
    have hcs : startCount lower (K + 1) = startCount lower K + 1 := by
      rw [startCount_succ, if_pos hp]
    have hc0 : (0 : Int) ≤ s.dpos + 1 := by omega
    have hcn : (s.dpos + 1).toNat = startCount lower K := by omega
    have hclt : (s.dpos + 1).toNat < s.dest.length := by omega
    have hold : s.dest.getD (startCount lower K) 0 = x.getD (startCount lower K) 0 := by
      rw [hval _ (by omega), if_neg (lt_irrefl _), offSum_eq_zero _ _ _ _ _ (le_refl _),
        add_zero]
    have hget : getI s.dest (s.dpos + 1) = some (x.getD (startCount lower K) 0) := by
      rw [getI_of_lt hc0 hclt, ← hold, ← hcn, List.getD_eq_getElem _ _ hclt]
    refine ⟨{ dpos := s.dpos + 1
              rr := some K
              dest := s.dest.set (s.dpos + 1).toNat
                (x.getD (startCount lower K) 0 * theta.getD K 0) },
      ?_, ?_, ?_, ?_, ?_⟩
    · unfold lambdaStep
      simp only [hpK, if_true, hget, hthK, setI_of_lt _ hc0 hclt]
    · simp only [List.length_set]
      exact hlen
    · simp only [hcs]
      omega
    · intro _
      simp
    · intro d hd
      have eD : (if blockStart lower K ∧ startCount lower K = d then theta.getD K 0 else 0) =
          if d = startCount lower K then theta.getD K 0 else 0 := by
        by_cases e : d = startCount lower K
        · rw [if_pos ⟨hp, e.symm⟩, if_pos e]
        · rw [if_neg (fun h => e h.2.symm), if_neg e]
      have eO : (if ¬ blockStart lower K ∧ startCount lower K = d + 1
          then theta.getD K 0 * x.getD K 0 else 0) = 0 := if_neg (fun h => h.1 hp)
      show (s.dest.set (s.dpos + 1).toNat _).getD d 0 = _
      rw [getD_set _ _ _ _ _ hclt, hcn, hcs, diagCoef_succ, offSum_succ, eD, eO, add_zero]
      by_cases hdc : d = startCount lower K
      · subst hdc
        rw [if_pos rfl, if_pos (Nat.lt_succ_self _), if_pos rfl,
          diagCoef_eq_zero _ _ _ _ (le_refl _), offSum_eq_zero _ _ _ _ _ (le_refl _)]
        ring
      · rw [if_neg hdc, if_neg hdc, add_zero, hval d hd]
        by_cases hlt : d < startCount lower K
        · rw [if_pos hlt, if_pos (Nat.lt_succ_of_lt hlt)]
        · rw [if_neg hlt, if_neg (by omega)]
  · -- not a block start: `dest[dpos] += theta[k] * *++rr`
    have hne : ¬ lower[K] = some 0 := by
      intro e
      apply hp
      show lower[K]? = some (some 0)
      rw [hlk, e]
    have hK0 : 0 < K := by
      rcases Nat.eq_zero_or_pos K with h | h
      · subst h; exact absurd h0 hp
      · exact h
    have hcs : startCount lower (K + 1) = startCount lower K := by
      rw [startCount_succ, if_neg hp, Nat.add_zero]
    have hc1 : 1 ≤ startCount lower K := by
      have h1 := startCount_succ lower 0
      rw [if_pos h0] at h1
      have h2 := startCount_mono lower (show 0 + 1 ≤ K by omega)
      omega
    have hd0 : (0 : Int) ≤ s.dpos := by omega
    have hdn : s.dpos.toNat = startCount lower K - 1 := by omega
    have hdlt : s.dpos.toNat < s.dest.length := by omega
    have hrrK : s.rr = some (K - 1) := hrr hK0
    have hK1 : K - 1 + 1 = K := by omega
    have hreadK : s.dest[K - 1 + 1]? = some (x.getD K 0) := by
      rw [hK1, getElem?_getD s.dest K 0 (by omega), hval K hx, if_neg (by omega),
        offSum_eq_zero _ _ _ _ _ hcK, add_zero]
    have hget : getI s.dest s.dpos = some (s.dest.getD (startCount lower K - 1) 0) := by
      rw [getI_of_lt hd0 hdlt, ← hdn, List.getD_eq_getElem _ _ hdlt]
    refine ⟨{ dpos := s.dpos
              rr := some (K - 1 + 1)
              dest := s.dest.set s.dpos.toNat
                (s.dest.getD (startCount lower K - 1) 0 + theta.getD K 0 * x.getD K 0) },
      ?_, ?_, ?_, ?_, ?_⟩
    · unfold lambdaStep
      simp only [hlk, if_neg hne, hrrK, hget, hthK, hreadK, setI_of_lt _ hd0 hdlt]
    · simp only [List.length_set]
      exact hlen
    · simp only [hcs]
      exact hdpos
    · intro _
      simp
      omega
    · intro d hd
      have eD : (if blockStart lower K ∧ startCount lower K = d then theta.getD K 0 else 0) =
          0 := if_neg (fun h => hp h.1)
      have eO : (if ¬ blockStart lower K ∧ startCount lower K = d + 1
          then theta.getD K 0 * x.getD K 0 else 0) =
          if d = startCount lower K - 1 then theta.getD K 0 * x.getD K 0 else 0 := by
        by_cases e : d = startCount lower K - 1
        · rw [if_pos ⟨hp, by omega⟩, if_pos e]
        · rw [if_neg (fun h => e (by omega)), if_neg e]
      show (s.dest.set s.dpos.toNat _).getD d 0 = _
      rw [getD_set _ _ _ _ _ hdlt, hdn, hcs, diagCoef_succ, offSum_succ, eD, eO, add_zero]
      by_cases hdc : d = startCount lower K - 1
      · subst hdc
        rw [if_pos rfl, if_pos rfl, hval _ hd]
        ring
      · rw [if_neg hdc, if_neg hdc, add_zero, hval d hd]

theorem zeroPositions_eq (lower : List (Option R)) :
    zeroPositions lower =
      (List.range lower.length).filter (fun t => decide (blockStart lower t)) :=
  rfl

/-- The scale factor of output slot `d` after the whole loop is `theta` at the position of
the block start number `d`. -/
theorem diagCoef_full (lower : List (Option R)) (theta : List R) (d : Nat)
    (hd : d < startCount lower lower.length) :
    diagCoef lower theta lower.length d = theta.getD ((zeroPositions lower).getD d 0) 0 := by
  obtain ⟨hz1, hz2, hz3⟩ := (filter_range_count (blockStart lower) lower.length).2 d hd
  rw [zeroPositions_eq]
  generalize ((List.range lower.length).filter (fun t => decide (blockStart lower t))).getD d 0
    = z at hz1 hz2 hz3
  unfold diagCoef
  rw [Finset.sum_eq_single z]
  · rw [if_pos ⟨hz2, hz3⟩]
  · intro t _ hne
    rw [if_neg]
    rintro ⟨hp, hc⟩
    exact hne (Nat.count_injective hp hz2 (hc.trans hz3.symm))
  · intro hnot
    exact absurd (Finset.mem_range.mpr hz1) hnot

/-- The off-diagonal terms of output slot `d` after the whole loop are the terms of the
positions strictly between the block start number `d` and the next one. -/
theorem offSum_full (lower : List (Option R)) (theta x : List R) (d : Nat)
    (hd : d < startCount lower lower.length) :
    offSum lower theta x lower.length d =
      ∑ t in Finset.range lower.length,
        (if (zeroPositions lower).getD d 0 < t ∧
            t < (zeroPositions lower).getD (d + 1) lower.length
          then theta.getD t 0 * x.getD t 0 else 0) := by
  unfold offSum
  apply Finset.sum_congr rfl
  intro t ht
  have hiff := between_starts_iff (blockStart lower) lower.length d t hd
    (Finset.mem_range.mp ht)
  rw [zeroPositions_eq]
  exact if_congr hiff rfl rfl

/-- **C12** Index-for-index closed form of `apply_lambda`.  Let `lower` have length `kpp`
and `lower[0] = 0`, let `z_0 < z_1 < ... < z_{m-1}` be the positions of its zero entries
(`zeroPositions lower`) and put `z_m = kpp`.  For every input block `x` of length `kpp` and
every `theta` of the length of `lower`, `apply_lambda` completes with an output `y` of
length `kpp` such that `y[d] = theta[z_d] * x[d] + sum of theta[t] * x[t]` over
`z_d < t < z_{d+1}` for every `d < m`, and `y[t] = x[t]` for every `t >= m`; the values on
the right-hand side are those of the input `x`. -/
theorem apply_lambda_closed_form (obj : RSC R) (theta x : List R)
    (hlow : obj.lower.length = obj.kpp) (hth : theta.length = obj.lower.length)
    (hx : x.length = obj.kpp) (h0 : obj.lower[0]? = some (some 0)) :
    ∃ y, apply_lambda obj theta x = .ok y ∧ y.length = obj.kpp ∧
      (∀ d, d < (zeroPositions obj.lower).length →
        y.getD d 0 = theta.getD ((zeroPositions obj.lower).getD d 0) 0 * x.getD d 0 +
          ∑ t in Finset.range obj.kpp,
            (if (zeroPositions obj.lower).getD d 0 < t ∧
                t < (zeroPositions obj.lower).getD (d + 1) obj.kpp
              then theta.getD t 0 * x.getD t 0 else 0)) ∧
      (∀ t, (zeroPositions obj.lower).length ≤ t → t < obj.kpp → y.getD t 0 = x.getD t 0) := by
  have hinit : LambdaInv obj.lower theta x 0 { dpos := -1, rr := none, dest := x } := by
    refine ⟨rfl, ?_, fun h => absurd h (lt_irrefl 0), ?_⟩
    · simp [startCount]
    · intro d _
      simp [startCount, offSum]
  obtain ⟨s', hs', hlen, -, -, hval⟩ := forLoop_total
    (fun (K : Nat) (s : LamSt R) => LambdaInv obj.lower theta x K s)
    (lambdaStep obj.lower theta) obj.kpp { dpos := -1, rr := none, dest := x } hinit
    (fun K s hK hs => lambdaStep_inv obj.lower theta x K (by omega) (by omega) (by omega)
      h0 s hs)
  have hm : (zeroPositions obj.lower).length = startCount obj.lower obj.kpp := by
    rw [zeroPositions_eq, hlow]
    exact (filter_range_count (blockStart obj.lower) obj.kpp).1
  have hzlen : (zeroPositions obj.lower).length ≤ obj.kpp := by
    rw [hm]
    exact startCount_le _ _
  refine ⟨s'.dest, ?_, by rw [hlen, hx], ?_, ?_⟩
  · unfold apply_lambda
    rw [hs']
    rfl
  · intro d hd
    rw [hm] at hd
    have hd' : d < startCount obj.lower obj.lower.length := by rw [hlow]; exact hd
    rw [hval d (by omega), if_pos hd]
    have e1 := diagCoef_full obj.lower theta d hd'
    have e2 := offSum_full obj.lower theta x d hd'
    rw [hlow] at e1 e2
    rw [e1, e2]
  · intro t ht htk
    rw [hm] at ht
    rw [hval t (by omega), if_neg (by omega), offSum_eq_zero _ _ _ _ _ ht, add_zero]

/-- The closed form applied to one 2 x 2 block followed by a fixed effect: the zero markers
are at positions 0 and 2, and the output is `(2 * 1 + 3 * 10, 5 * 100, 100)`. -/
theorem apply_lambda_closed_form_witness :
    apply_lambda exBlock [2, 3, 5] [1, 10, 100] = .ok [32, 50, 100] ∧
      zeroPositions exBlock.lower = [0, 2] ∧
      ∃ y, apply_lambda exBlock [2, 3, 5] [1, 10, 100] = .ok y ∧ y.length = exBlock.kpp ∧
        (∀ d, d < (zeroPositions exBlock.lower).length →
          y.getD d 0 = ([2, 3, 5] : List Int).getD ((zeroPositions exBlock.lower).getD d 0) 0 *
              ([1, 10, 100] : List Int).getD d 0 +
            ∑ t in Finset.range exBlock.kpp,
              (if (zeroPositions exBlock.lower).getD d 0 < t ∧
                  t < (zeroPositions exBlock.lower).getD (d + 1) exBlock.kpp
                then ([2, 3, 5] : List Int).getD t 0 * ([1, 10, 100] : List Int).getD t 0
                else 0)) ∧
        (∀ t, (zeroPositions exBlock.lower).length ≤ t → t < exBlock.kpp →
          y.getD t 0 = ([1, 10, 100] : List Int).getD t 0) :=
  ⟨by decide, by decide,
    apply_lambda_closed_form exBlock [2, 3, 5] [1, 10, 100] (by decide) (by decide)
      (by decide) (by decide)⟩

end ClosedForm

/-! ## `update_A`: normal completion and the fixed effects -/

section NoFixed

variable {R : Type} [CommRing R] [DecidableEq R]

/-- A completed observation step has completed its `ubeta` loop. -/
theorem obsStep_ok_ubetaLoop {obj : RSC R} {theta resid : List R} {colptr rowval : List Int}
    {j : Nat} {s s' : St R} (h : obsStep obj theta resid colptr rowval j s = .ok s') :
    ∃ rj w ub, forLoop (ubetaStep obj j rj w) obj.kpp s.ubeta = .ok ub := by
  unfold obsStep at h
  split at h
  · split at h
    · rename_i rj w0 _ _ _ w _
      rw [Res.bind_eq_ok] at h
      obtain ⟨s1, hs1, -⟩ := h
      rw [Res.map_eq_ok] at hs1
      obtain ⟨ub, hub, -⟩ := hs1
      exact ⟨rj, w, ub, hub⟩
    · exact absurd h (by simp)
  · exact absurd h (by simp)

/-- On an object the constructor returns, whose `rv` holds `k * n` entries, `update_A`
completes normally only when there is no fixed effect (`p = 0`): with `p > 0` the loop over
`i < kpp` of the last observation reads `rv(k, n - 1)`, the position just past the end of
`rv`. -/
theorem update_A_ok_no_fixed (rv : RMatrix Int) (xv : RMatrix R) (lower : List (Option R))
    (obj : RSC R) (hnew : RSC.new rv xv lower = .ok obj) (hwf : rv.WF)
    (theta resid : List R) (A : dsCMatrix R) (ubeta : List R) (s : St R)
    (h : update_A obj theta resid A ubeta = .ok s) : obj.p = 0 := by
  obtain ⟨hrv, -, -, hk, hkpp, hn, hcol, hp, hp0, hne, -⟩ := RSC_new_ok hnew
  by_contra hpne
  have hlen : rv.data.length = rv.nrow * rv.ncol := hwf
  have hpos : 0 < rv.nrow * rv.ncol := by
    rw [← hlen]
    exact List.length_pos.mpr hne
  have hn0 : 0 < obj.n := by
    rw [hn, ← hcol]
    rcases Nat.eq_zero_or_pos rv.ncol with e | e
    · rw [e, Nat.mul_zero] at hpos
      exact absurd hpos (lt_irrefl 0)
    · exact e
  have hkk : obj.k < obj.kpp := by omega
  obtain ⟨h1, h2, h3, h4, h5⟩ := update_A_ok_checks h
  rw [update_A_checked obj theta resid A ubeta h1 h2 h3 h4 h5, Res.bind_eq_ok] at h
  obtain ⟨s1, -, hloop⟩ := h
  obtain ⟨M, hM⟩ : ∃ M, obj.n = M + 1 := ⟨obj.n - 1, by omega⟩
  rw [hM] at hloop
  simp only [forLoop] at hloop
  rw [Res.bind_eq_ok] at hloop
  obtain ⟨s2, -, hlast⟩ := hloop
  obtain ⟨rj, w, ub, hub⟩ := obsStep_ok_ubetaLoop hlast
  obtain ⟨c, -, hc, -⟩ := (ubetaLoop_ok_reads obj M rj w obj.kpp s2.ubeta).of_ok hub obj.k hkk
  rw [hrv] at hc
  unfold RMatrix.at at hc
  have hidx : obj.k + rv.nrow * M = rv.data.length := by
    have hncol : rv.ncol = M + 1 := by rw [hcol, ← hn, hM]
    rw [hlen, hk, hncol]
    ring
  rw [hidx, List.getElem?_eq_none (le_refl _)] at hc
  exact absurd hc (by simp)

end NoFixed

end lme4
